import Mathlib

/-!
Pool: membership of a scraper pool kept in ZooKeeper (`zookeeper/pool.go`)

A shallow embedding of `NewPool`, `Pool.run`, `Pool.Stop` and `Pool.Scrapers`.

* Go strings are lists of characters; the only characters the code inspects are
  `/` and `.`, which are single bytes that never occur inside a multi-byte
  UTF-8 sequence, so working by character and working by byte agree.
* `strings.Split`, `path.Join` and `path.Clean` of the Go standard library are
  embedded too: `Clean` is the byte loop of the library, `Clean_eq_cleanSegs`
  relates it to the view by path elements that the proofs use.
* The backend (`p.conn`) is a state-passing record of functions over an arbitrary
  backend state `σ`; a backend that answers differently from call to call is
  one whose state counts the calls, so a theorem for every `Client σ` holds for
  every behaviour of the backend.
* `Pool.run` is a goroutine.  Its bootstrap and registration part (lines 59-101)
  is a function; its endless `for` loop (lines 103-135) is a step function over
  program points, with the environment (consumer, watch event, timer, callers
  of `Stop`) acting through `Action`.
* The fields `trace`, `sent` and `sleeps` of `Sys` only record what happened.
-/

namespace zookeeper

/-- Go `string`, as the list of its characters. -/
abbrev Str := List Char

/-! ## Go standard library: `strings.Split`, `strings.Join`, `path.Clean`, `path.Join` -/

/-- Go `strings.Split(s, "/")`: the substrings between the slashes; one more
element than there are slashes, so `Split "" = [""]`. -/
def Split : Str → List Str
  | [] => [[]]
  | c :: cs =>
    if c = '/' then [] :: Split cs
    else
      match Split cs with
      | [] => [[c]]
      | h :: t => (c :: h) :: t

/-- Go `strings.Join(elems, "/")`. -/
def joinSlash : List Str → Str
  | [] => []
  | [a] => a
  | a :: b :: rest => a ++ '/' :: joinSlash (b :: rest)

/-- The effect of the main loop of Go `path.Clean` on one path element `e` (the
text up to the next slash), on the output seen as the list of elements kept so
far, with `dotdot` the number of leading elements that `..` may not remove.
The four branches are the four `case`s of the Go `switch`: empty element,
`.` element, `..` element (backtrack if possible, else keep it when the path is
not rooted), real element. -/
def cleanElem (rooted : Bool) (st : List Str × Nat) (e : Str) : List Str × Nat :=
  if e = [] then st
  else if e = ['.'] then st
  else if e = ['.', '.'] then
    if st.1.length > st.2 then (st.1.dropLast, st.2)
    else if !rooted then (st.1 ++ [e], st.1.length + 1)
    else st
  else (st.1 ++ [e], st.2)

/-- The segment view of `path.Clean`: split at the slashes, run `cleanElem` over
the elements, join what is kept.  `Clean_eq_cleanSegs` proves that the byte
loop of `Clean` computes this. -/
def cleanSegs (path : Str) : Str :=
  if path = [] then ['.']
  else
    let rooted := path.head? == some '/'
    let out := ((Split path).foldl (cleanElem rooted) ([], 0)).1
    if rooted then '/' :: joinSlash out
    else if out = [] then ['.']
    else joinSlash out

/-- The inner loop `for out.w > dotdot && out.index(out.w) != '/' { out.w-- }`
of the `..` branch of `path.Clean`.  The first argument is the kept part of the
buffer in reverse (its length is `out.w`), the second is `out.index(out.w)`,
the byte dropped last. -/
def backLoop (dotdot : Nat) : Str → Char → Str
  | [], _ => []
  | c :: r, dropped =>
    if (c :: r).length > dotdot ∧ dropped ≠ '/' then backLoop dotdot r c else c :: r

/-- The backtracking of the `..` branch of `path.Clean`: `out.w--` followed by
the inner loop. -/
def backtrack (dotdot : Nat) (out : Str) : Str :=
  match out.reverse with
  | [] => []
  | c :: r => (backLoop dotdot r c).reverse

/-- The main loop `for r < n { switch { ... } }` of Go `path.Clean`.  `rest` is
`path[r:]`, `out` the bytes written so far (`out.w` is its length), `dotdot` the
offset in `out` where `..` must stop.  The first argument bounds the number of
rounds; every round consumes at least one byte, so `rest.length` rounds are
enough. -/
def cleanLoop (rooted : Bool) : Nat → Str → Str → Nat → Str
  | 0, _, out, _ => out
  | _ + 1, [], out, _ => out
  | fuel + 1, c :: t, out, dotdot =>
    if c = '/' then
      -- empty path element
      cleanLoop rooted fuel t out dotdot
    else if c = '.' ∧ (t = [] ∨ t.head? = some '/') then
      -- . element
      cleanLoop rooted fuel t out dotdot
    else if c = '.' ∧ t.head? = some '.' ∧ (t.tail = [] ∨ t.tail.head? = some '/') then
      -- .. element: remove to last /
      if out.length > dotdot then
        cleanLoop rooted fuel t.tail (backtrack dotdot out) dotdot
      else if !rooted then
        cleanLoop rooted fuel t.tail
          ((if out.length > 0 then out ++ ['/'] else out) ++ ['.', '.'])
          ((if out.length > 0 then out ++ ['/'] else out).length + 2)
      else cleanLoop rooted fuel t.tail out dotdot
    else
      -- real path element: add slash if needed, copy element
      cleanLoop rooted fuel ((c :: t).dropWhile (fun x => x ≠ '/'))
        ((if (rooted && out.length != 1) || (!rooted && out.length != 0) then out ++ ['/']
          else out) ++ (c :: t).takeWhile (fun x => x ≠ '/'))
        dotdot

/-- Go `path.Clean`: the shortest path name equivalent to `path` by purely
lexical processing.  A rooted path starts with the slash written and `r`,
`dotdot` at 1; the empty result becomes `.`. -/
def Clean (path : Str) : Str :=
  if path = [] then ['.']
  else
    let out :=
      if path.head? == some '/' then cleanLoop true path.length path.tail ['/'] 1
      else cleanLoop false path.length path [] 0
    if out.length = 0 then ['.'] else out

/-- Go `path.Join`: joins the elements from the first non-empty one on with
slashes and cleans the result; all elements empty gives the empty string. -/
def Join (elem : List Str) : Str :=
  let rest := elem.dropWhile (fun e => e = [])
  if rest = [] then [] else Clean (joinSlash rest)

/-! ## The backend: package `zk` and the `Client` interface -/

/-- Errors of the `zk` package that matter to the callers (`zk.ErrNodeExists`
and so on); `ErrOther` stands for any other error value. -/
inductive Err where
  | ErrNodeExists
  | ErrNoNode
  | ErrNoAuth
  | ErrConnectionClosed
  | ErrSessionExpired
  | ErrOther (code : Int)
  deriving DecidableEq, Repr

/-- The value-or-error pair returned by a backend call; when the error is not
nil the code under study never looks at the value. -/
inductive Res (α : Type) where
  | ok (v : α)
  | error (e : Err)
  deriving DecidableEq, Repr

/-- Whether a call returned `err != nil`. -/
def Res.failed {α : Type} : Res α → Bool
  | .ok _ => false
  | .error _ => true

/-- Go `zk.ACL`. -/
structure ACL where
  Perms : Nat
  Scheme : Str
  ID : Str
  deriving DecidableEq, Repr

/-- Go `zk.PermAll`. -/
def PermAll : Nat := 0x1f

/-- Go `zk.WorldACL`. -/
def WorldACL (perms : Nat) : List ACL :=
  [{ Perms := perms, Scheme := "world".toList, ID := "anyone".toList }]

/-- Go `zk.FlagEphemeral`. -/
def FlagEphemeral : Int := 1

/-- Modelled from the spec: the `Client` interface held in `Pool.conn`, declared
outside `pool.go`; section 6 of the spec lists its operations `Exists`, `Create`
and `ChildrenW`.  Each operation takes the backend state and returns the
result with the next backend state.  The `*Stat` results are dropped because
`run` discards them; the event channel returned by `ChildrenW` is the field
`evPending` of `Sys`. -/
structure Client (σ : Type) where
  Exists : σ → Str → Res Bool × σ
  Create : σ → Str → List Nat → Int → List ACL → Res Str × σ
  ChildrenW : σ → Str → Res (List Str) × σ

/-- A completed backend call with its result, as recorded in the trace. -/
inductive Ev where
  | Exists (path : Str) (res : Res Bool)
  | Create (path : Str) (data : List Nat) (flags : Int) (acl : List ACL) (res : Res Str)
  | ChildrenW (path : Str) (res : Res (List Str))
  deriving DecidableEq, Repr

/-! ## Channels, the `Pool` struct and the system state -/

/-- A Go channel as far as closing goes: whether it is closed and how often
`close` ran on it.  Go panics on the second `close`, so `closes ≤ 1` says that
no such panic happened. -/
structure Chan where
  closed : Bool
  closes : Nat
  deriving DecidableEq, Repr

/-- Go `make(chan T)`. -/
def Chan.make : Chan := { closed := false, closes := 0 }

/-- Go `close(ch)`. -/
def Chan.close (ch : Chan) : Chan := { closed := true, closes := ch.closes + 1 }

/-- The `Pool` struct without `conn`, which is passed separately.  `once` is
whether the `sync.Once` has run its function. -/
structure Pool where
  id : Str
  path : Str
  done : Chan
  out : Chan
  once : Bool
  deriving DecidableEq, Repr

/-- The `PoolConfig` struct without `Conn`. -/
structure PoolConfig where
  ID : Str
  Root : Str
  deriving DecidableEq, Repr

/-- Program points of the goroutine `p.run()`. -/
inductive PC where
  /-- Goroutine started, nothing executed yet (line 58). -/
  | start
  /-- At the `select` with `default` at the head of the loop (line 104). -/
  | loopTop
  /-- About to call `ChildrenW` (line 111). -/
  | fetch
  /-- Inside `time.Sleep` after a failed `ChildrenW` (line 114). -/
  | sleeping
  /-- Blocked in `select { case <-p.done; case p.out <- ch }` (line 122). -/
  | sending (ch : List Str)
  /-- Blocked in `select { case <-p.done; case <-ech }` (line 129). -/
  | waiting
  /-- Returned from `run`; the deferred `close(p.out)` has run. -/
  | exited
  /-- Reached `log.Fatal`, which ends the process: nothing runs any more, the
  deferred `close(p.out)` included. -/
  | fatal
  deriving DecidableEq, Repr

/-- Go `time.Second`, in nanoseconds. -/
def Second : Nat := 1000000000

/-- The pool, its goroutine, the backend, the environment and the history. -/
structure Sys (σ : Type) where
  pool : Pool
  pc : PC
  /-- State of the backend. -/
  zk : σ
  /-- A consumer is blocked receiving from `p.Scrapers()`. -/
  recvReady : Bool
  /-- The watch event of the latest `ChildrenW` sits in its channel `ech`. -/
  evPending : Bool
  /-- Ghost: the backend calls made by `run`, oldest first. -/
  trace : List Ev
  /-- Ghost: the snapshots received by the consumer, oldest first. -/
  sent : List (List Str)
  /-- Ghost: the durations passed to `time.Sleep`, oldest first. -/
  sleeps : List Nat

/-- Result of the bootstrap loop: whether `log.Fatal` was reached, the backend
state and the calls made. -/
structure BootOut (σ : Type) where
  fatal : Bool
  zk : σ
  tr : List Ev

/-- The struct literal `&Pool{...}` of `NewPool` (lines 40-46). -/
def newPool (config : PoolConfig) : Pool :=
  { id := config.ID
    path := Join [config.Root, "scraper".toList, "scrapers".toList]
    done := Chan.make
    out := Chan.make
    once := false }

/-- `NewPool`: builds the struct and starts the goroutine (`go p.run()`), which
has not run yet.  The returned error is always nil. -/
def NewPool {σ : Type} (config : PoolConfig) (zk : σ) : Sys σ :=
  { pool := newPool config
    pc := .start
    zk := zk
    recvReady := false
    evPending := false
    trace := []
    sent := []
    sleeps := [] }

/-- `mypath := path.Join(p.path, p.id)` (line 60). -/
def mypath (p : Pool) : Str := Join [p.path, p.id]

/-- The loop `for i := 1; i < len(parts)-1; i++` of lines 68-90, run over the
elements `parts[1], ..., parts[len(parts)-2]` it visits, which the caller passes
as `(parts.drop 1).dropLast` (see `loop_range`).  `log.Fatal` ends the loop with
`fatal := true`; `continue` and the end of the body go to the next element. -/
def ensurePath {σ : Type} (c : Client σ) : List Str → Str → σ → BootOut σ
  | [], _, zk => { fatal := false, zk := zk, tr := [] }
  | part :: rest, acc, zk =>
    let acc1 := acc ++ '/' :: part
    match c.Exists zk acc1 with
    | (.error e, zk1) => { fatal := true, zk := zk1, tr := [Ev.Exists acc1 (.error e)] }
    | (.ok true, zk1) =>
      let r := ensurePath c rest acc1 zk1
      { fatal := r.fatal, zk := r.zk, tr := Ev.Exists acc1 (.ok true) :: r.tr }
    | (.ok false, zk1) =>
      match c.Create zk1 acc1 [] 0 (WorldACL PermAll) with
      | (.error e, zk2) =>
        { fatal := true, zk := zk2
          tr := [Ev.Exists acc1 (.ok false), Ev.Create acc1 [] 0 (WorldACL PermAll) (.error e)] }
      | (.ok created, zk2) =>
        let r := ensurePath c rest acc1 zk2
        { fatal := r.fatal, zk := r.zk
          tr := Ev.Exists acc1 (.ok false)
                  :: Ev.Create acc1 [] 0 (WorldACL PermAll) (.ok created) :: r.tr }

/-- Lines 66-90: split `mypath` and run the bootstrap loop from `acc := ""`. -/
def bootstrap {σ : Type} (c : Client σ) (p : Pool) (zk : σ) : BootOut σ :=
  ensurePath c ((Split (mypath p)).drop 1).dropLast [] zk

/-- Return from `run`: the deferred `close(p.out)` runs (line 59). -/
def runReturn {σ : Type} (s : Sys σ) : Sys σ :=
  { s with pc := .exited, pool := { s.pool with out := s.pool.out.close } }

/-- Lines 59-101 of `run`: bootstrap, then registration of the ephemeral member
node.  None of it reads `p.done` or touches `p.out`, so it is one step. -/
def runInit {σ : Type} (c : Client σ) (s : Sys σ) : Sys σ :=
  let b := bootstrap c s.pool s.zk
  if b.fatal then
    { s with pc := .fatal, zk := b.zk, trace := s.trace ++ b.tr }
  else
    match c.Create b.zk (mypath s.pool) [] FlagEphemeral (WorldACL PermAll) with
    | (.error e, zk1) =>
      runReturn { s with
        zk := zk1
        trace := s.trace ++ b.tr ++
          [Ev.Create (mypath s.pool) [] FlagEphemeral (WorldACL PermAll) (.error e)] }
    | (.ok created, zk1) =>
      { s with
        pc := .loopTop
        zk := zk1
        trace := s.trace ++ b.tr ++
          [Ev.Create (mypath s.pool) [] FlagEphemeral (WorldACL PermAll) (.ok created)] }

/-- How the goroutine resolves the statement it is at: `cancel` is the
`case <-p.done` of a `select`, `proceed` is the other case (or the plain
statement when there is no `select`). -/
inductive Choice where
  | cancel
  | proceed
  deriving DecidableEq, Repr

/-- One step of the goroutine `p.run()`, `none` when that choice is not
enabled.  A `select` may take any case that is ready; the `select` of line 104
takes `default` only when `p.done` is not closed; `time.Sleep` has no step of
the goroutine (the timer ends it, see `act`). -/
def runStep {σ : Type} (c : Client σ) (s : Sys σ) : Choice → Option (Sys σ)
  | .cancel =>
    match s.pc with
    | .loopTop => if s.pool.done.closed then some (runReturn s) else none
    | .sending _ => if s.pool.done.closed then some (runReturn s) else none
    | .waiting => if s.pool.done.closed then some (runReturn s) else none
    | _ => none
  | .proceed =>
    match s.pc with
    | .start => some (runInit c s)
    | .loopTop => if s.pool.done.closed then none else some { s with pc := .fetch }
    | .fetch =>
      match c.ChildrenW s.zk s.pool.path with
      | (.error e, zk1) =>
        some { s with
          pc := .sleeping
          zk := zk1
          trace := s.trace ++ [Ev.ChildrenW s.pool.path (.error e)]
          sleeps := s.sleeps ++ [Second * 2] }
      | (.ok ch, zk1) =>
        some { s with
          pc := .sending ch
          zk := zk1
          evPending := false
          trace := s.trace ++ [Ev.ChildrenW s.pool.path (.ok ch)] }
    | .sending ch =>
      if s.recvReady then
        some { s with pc := .waiting, recvReady := false, sent := s.sent ++ [ch] }
      else none
    | .waiting =>
      if s.evPending then some { s with pc := .loopTop, evPending := false } else none
    | _ => none

/-- `Pool.Stop`: `p.once.Do(func() { close(p.done) })`. -/
def Pool.Stop (p : Pool) : Pool :=
  if p.once then p else { p with once := true, done := p.done.close }

/-- `Pool.Scrapers`: the receive-only view of `p.out`. -/
def Pool.Scrapers (p : Pool) : Chan := p.out

/-- `Stop` called on the pool of a running system. -/
def Stop {σ : Type} (s : Sys σ) : Sys σ := { s with pool := s.pool.Stop }

/-- `Stop` called `n` times in a row. -/
def stopTimes {σ : Type} : Nat → Sys σ → Sys σ
  | 0, s => s
  | n + 1, s => stopTimes n (Stop s)

/-- What can happen to the system: a step of the goroutine, or a move of the
environment. -/
inductive Action where
  /-- The goroutine `p.run()` takes a step. -/
  | task (ch : Choice)
  /-- Some goroutine calls `p.Stop()`. -/
  | stop
  /-- A consumer starts to receive from `p.Scrapers()`. -/
  | recvOn
  /-- The consumer gives up receiving. -/
  | recvOff
  /-- The backend delivers the one watch event of the latest `ChildrenW`. -/
  | fire
  /-- The timer of `time.Sleep` elapses; the `continue` goes to the loop head. -/
  | wake
  deriving DecidableEq, Repr

/-- Whether the goroutine holds an armed watch: `ChildrenW` has returned its
event channel and the goroutine has not yet left the `select` of line 129. -/
def PC.watching : PC → Bool
  | .sending _ => true
  | .waiting => true
  | _ => false

/-- One transition of the system, `none` when the action is not enabled. -/
def act {σ : Type} (c : Client σ) (s : Sys σ) : Action → Option (Sys σ)
  | .task ch => runStep c s ch
  | .stop => some (Stop s)
  | .recvOn => some { s with recvReady := true }
  | .recvOff => some { s with recvReady := false }
  | .fire =>
    if s.pc.watching && !s.evPending then some { s with evPending := true } else none
  | .wake => if s.pc = .sleeping then some { s with pc := .loopTop } else none

/-- A run of the system along a schedule, `none` when some action of the
schedule is not enabled where it stands. -/
def exec {σ : Type} (c : Client σ) : Sys σ → List Action → Option (Sys σ)
  | s, [] => some s
  | s, a :: as =>
    match act c s a with
    | none => none
    | some s1 => exec c s1 as

/-! ## Backends and states for concrete runs -/

/-- The parent of an absolute node path: the path up to its last slash. -/
def parentOf (p : Str) : Str :=
  ((p.reverse.dropWhile (fun ch => ch ≠ '/')).drop 1).reverse

/-- An in-memory tree of nodes: the state is the list of existing node paths
(the root `/` always exists).  `Create` fails with `ErrNodeExists` on an
existing node and with `ErrNoNode` when the parent is missing. -/
def memClient : Client (List Str) where
  Exists := fun nodes p => (.ok (decide (p ∈ nodes)), nodes)
  Create := fun nodes p _ _ _ =>
    if p ∈ nodes then (.error .ErrNodeExists, nodes)
    else if parentOf p ≠ [] ∧ parentOf p ∉ nodes then (.error .ErrNoNode, nodes)
    else (.ok p, p :: nodes)
  ChildrenW := fun nodes p =>
    (.ok ((nodes.filter (fun q => decide (parentOf q = p))).map (fun q => q.drop (p.length + 1))),
      nodes)

/-- A backend that is down: every call fails with `zk.ErrConnectionClosed`. -/
def downClient : Client Unit where
  Exists := fun s _ => (.error .ErrConnectionClosed, s)
  Create := fun s _ _ _ _ => (.error .ErrConnectionClosed, s)
  ChildrenW := fun s _ => (.error .ErrConnectionClosed, s)

/-- The in-memory backend with a second process that creates every node right
after this process has asked for it with `Exists`. -/
def raceClient : Client (List Str) where
  Exists := fun nodes p => (.ok (decide (p ∈ nodes)), if p ∈ nodes then nodes else p :: nodes)
  Create := memClient.Create
  ChildrenW := memClient.ChildrenW

/-- A backend, with the number of calls so far as its state, whose first `k`
calls of `ChildrenW` fail and whose later ones return `kids`. -/
def flakyClient (k : Nat) (kids : List Str) : Client Nat where
  Exists := fun n _ => (.ok true, n)
  Create := fun n p _ _ _ => (.ok p, n)
  ChildrenW := fun n _ =>
    if n < k then (.error .ErrConnectionClosed, n + 1) else (.ok kids, n + 1)

/-- The configuration of the example scenario: root `/pools`, id `worker-7`. -/
def cfg7 : PoolConfig := { ID := "worker-7".toList, Root := "/pools".toList }

/-- Nodes of the in-memory backend after a crashed instance with id `worker-7`
whose session has not expired yet. -/
def staleNodes : List Str :=
  ["/pools/scraper/scrapers/worker-7".toList, "/pools/scraper/scrapers".toList,
    "/pools/scraper".toList, "/pools".toList]

/-- The example pool after registration on a backend whose first `ChildrenW`
fails, with the goroutine in the sleep after that failure and `Stop` called
during the sleep. -/
def sleepingStopped : Sys Nat :=
  { pool := (newPool cfg7).Stop
    pc := .sleeping
    zk := 1
    recvReady := false
    evPending := false
    trace :=
      (runInit (flakyClient 1 []) (NewPool cfg7 0)).trace ++
        [Ev.ChildrenW (newPool cfg7).path (.error .ErrConnectionClosed)]
    sent := []
    sleeps := [Second * 2] }

/-- The example pool with the goroutine blocked in the send of a snapshot, no
consumer receiving, and `Stop` called. -/
def sendingStopped : Sys (List Str) :=
  { pool := (newPool cfg7).Stop
    pc := .sending ["worker-7".toList]
    zk := []
    recvReady := false
    evPending := false
    trace := []
    sent := []
    sleeps := [] }

/-! ## Vocabulary of the statements -/

/-- A node name: a non-empty path element without slash other than `.` and `..`. -/
def Seg (e : Str) : Prop := e ≠ [] ∧ '/' ∉ e ∧ e ≠ ['.'] ∧ e ≠ ['.', '.']

instance decSeg : DecidablePred Seg := fun e => by unfold Seg; infer_instance

/-- Scan of `rest` with `pre` already read: every non-empty text read so far
that is directly followed by a slash, shortest first. -/
def ancestorsAux : Str → Str → List Str
  | _, [] => []
  | pre, ch :: rest =>
    (if ch = '/' ∧ pre ≠ [] then [pre] else []) ++ ancestorsAux (pre ++ [ch]) rest

/-- The non-empty proper ancestor paths of `p`, root first: the non-empty
strings `q` with `p = q ++ "/" ++ r` for some `r`. -/
def ancestors (p : Str) : List Str := ancestorsAux [] p

/-- The values that `acc` takes in the bootstrap loop over `parts` from `acc`. -/
def stems : List Str → Str → List Str
  | [], _ => []
  | part :: rest, acc => (acc ++ '/' :: part) :: stems rest (acc ++ '/' :: part)

/-- The elements that `path.Clean` keeps of a rooted path. -/
def rootElems (p : Str) : List Str := ((Split p).foldl (cleanElem true) ([], 0)).1

/-- The elements of the pool path under the rooted path `root`. -/
def poolElems (root : Str) : List Str := rootElems root ++ ["scraper".toList, "scrapers".toList]

/-- The paths of the `Exists` calls of a trace, in order. -/
def existsPaths : List Ev → List Str
  | [] => []
  | .Exists p _ :: t => p :: existsPaths t
  | _ :: t => existsPaths t

/-- The paths of the `Create` calls of a trace, in order. -/
def createPaths : List Ev → List Str
  | [] => []
  | .Create p _ _ _ _ :: t => p :: createPaths t
  | _ :: t => createPaths t

/-- The paths of the `Exists` calls of a trace that answered `false` (node
absent), in order. -/
def absentPaths : List Ev → List Str
  | [] => []
  | .Exists p (.ok false) :: t => p :: absentPaths t
  | _ :: t => absentPaths t

/-- The calls of one successful visit of the node `p` by the bootstrap loop:
one `Exists`, followed by one persistent `Create` with empty data exactly when
`Exists` answered `false`. -/
def visit (p : Str) (found : Bool) (created : Str) : List Ev :=
  if found then [Ev.Exists p (.ok true)]
  else [Ev.Exists p (.ok false), Ev.Create p [] 0 (WorldACL PermAll) (.ok created)]

/-- The calls of successful visits of the nodes `ps` in order, with the answers
`rs` of the backend. -/
def visits : List Str → List (Bool × Str) → List Ev
  | p :: ps, r :: rs => visit p r.1 r.2 ++ visits ps rs
  | _, _ => []

/-- The part of the state that only the goroutine `p.run()` changes. -/
def Sys.core {σ : Type} (s : Sys σ) : PC × σ × Chan × List Ev × List (List Str) × List Nat :=
  (s.pc, s.zk, s.pool.out, s.trace, s.sent, s.sleeps)

/-- Whether the recorded call returned an error. -/
def Ev.failed : Ev → Bool
  | .Exists _ r => r.failed
  | .Create _ _ _ _ r => r.failed
  | .ChildrenW _ r => r.failed

/-- Whether the recorded call is one the bootstrap loop makes: an `Exists`, or
a persistent `Create` (flags 0) with empty data and the open ACL. -/
def Ev.isBoot : Ev → Bool
  | .Exists _ _ => true
  | .Create _ data flags acl _ => data = [] && flags = 0 && acl = WorldACL PermAll
  | .ChildrenW _ _ => false

/-! ## Histories, schedules and invariants of the watch loop -/

/-- The backend state after `n` calls `ChildrenW(path)` from state `z`. -/
def zkAfter {σ : Type} (c : Client σ) (path : Str) (z : σ) : Nat → σ
  | 0 => z
  | n + 1 => (c.ChildrenW (zkAfter c path z n) path).2

/-- The first `n` calls `ChildrenW(path)` from backend state `z` with their
results, oldest first. -/
def fetchEvs {σ : Type} (c : Client σ) (path : Str) (z : σ) : Nat → List Ev
  | 0 => []
  | n + 1 =>
    fetchEvs c path z n ++ [Ev.ChildrenW path (c.ChildrenW (zkAfter c path z n) path).1]

/-- The child lists returned by the successful `ChildrenW` calls of a trace, in
the order of the calls. -/
def fetched : List Ev → List (List Str)
  | [] => []
  | .ChildrenW _ (.ok ch) :: t => ch :: fetched t
  | _ :: t => fetched t

/-- One if the watch event is pending, else zero. -/
def pend {σ : Type} (s : Sys σ) : Nat := if s.evPending then 1 else 0

/-- Invariant of the watch loop started in `s0`, for runs without `Stop` in which
every call of `ChildrenW` succeeds, after `n` watch events: `m` calls were
made, all on the pool path; every event fired was consumed except a pending
one; everything fetched was delivered except a snapshot being sent. -/
def WatchInv {σ : Type} (c : Client σ) (s0 s : Sys σ) (n : Nat) : Prop :=
  s.pool = s0.pool ∧ s.sleeps = s0.sleeps ∧
  ∃ m, s.zk = zkAfter c s0.pool.path s0.zk m ∧
    s.trace = s0.trace ++ fetchEvs c s0.pool.path s0.zk m ∧
    match s.pc with
    | .loopTop => m = n ∧ s.sent = s0.sent ++ fetched (fetchEvs c s0.pool.path s0.zk m)
    | .fetch => m = n ∧ s.sent = s0.sent ++ fetched (fetchEvs c s0.pool.path s0.zk m)
    | .sending ch =>
      ∃ k, m = k + 1 ∧ k + pend s = n ∧
        (c.ChildrenW (zkAfter c s0.pool.path s0.zk k) s0.pool.path).1 = .ok ch ∧
        s.sent = s0.sent ++ fetched (fetchEvs c s0.pool.path s0.zk k)
    | .waiting =>
      ∃ k, m = k + 1 ∧ k + pend s = n ∧
        s.sent = s0.sent ++ fetched (fetchEvs c s0.pool.path s0.zk m)
    | _ => False

/-- The schedule of one round of the watch loop with a consumer at hand: loop
head, fetch, the consumer arrives, send. -/
def roundSchedule : List Action :=
  [.task .proceed, .task .proceed, .recvOn, .task .proceed]

/-- The schedule of the watch loop for `n` watch events with a consumer that
receives every snapshot: the first round, then for each event the event, the
wake-up from the wait and another round. -/
def watchSchedule : Nat → List Action
  | 0 => roundSchedule
  | n + 1 => watchSchedule n ++ (.fire :: .task .proceed :: roundSchedule)

/-- Invariant of the watch loop started in `s0`, for runs without `Stop` on a
backend whose first `K` calls of `ChildrenW` fail and whose next one returns
`kids`: either a first snapshot was delivered and it was `kids`, or nothing
was delivered, `m` calls were made and `min m K` sleeps of two seconds done. -/
def RetryInv {σ : Type} (c : Client σ) (s0 s : Sys σ) (K : Nat) (kids : List Str) : Prop :=
  (∃ more, s.sent = s0.sent ++ kids :: more) ∨
  (s.pool = s0.pool ∧ s.sent = s0.sent ∧
    ∃ m, s.zk = zkAfter c s0.pool.path s0.zk m ∧
      s.trace = s0.trace ++ fetchEvs c s0.pool.path s0.zk m ∧
      s.sleeps = s0.sleeps ++ List.replicate (min m K) (Second * 2) ∧
      match s.pc with
      | .loopTop => m ≤ K
      | .fetch => m ≤ K
      | .sleeping => 1 ≤ m ∧ m ≤ K
      | .sending ch => m = K + 1 ∧ ch = kids
      | _ => False)

/-- The schedule of `n` failed rounds of the watch loop: loop head, fetch,
and the timer of the sleep. -/
def failRounds : Nat → List Action
  | 0 => []
  | n + 1 => failRounds n ++ [.task .proceed, .task .proceed, .wake]

/-- The schedule of `n` failed rounds followed by a loop head and a fetch. -/
def retrySchedule (n : Nat) : List Action :=
  failRounds n ++ [.task .proceed, .task .proceed]

/-- Invariant of the two channels: `p.done` is closed exactly when the
`sync.Once` has fired, by one `close`; `p.out` is closed exactly when `run` has
returned, by one `close`. -/
def PoolInv {σ : Type} (s : Sys σ) : Prop :=
  s.pool.done.closed = s.pool.once ∧
  s.pool.done.closes = (if s.pool.once then 1 else 0) ∧
  s.pool.out.closed = decide (s.pc = .exited) ∧
  s.pool.out.closes = (if s.pc = .exited then 1 else 0)

/-! ## The byte buffer of `path.Clean` seen as a list of elements -/

/-- The bytes that `path.Clean` has written when it has kept the elements
`stack`: the leading slash of a rooted path, then the elements joined. -/
def render (rooted : Bool) (stack : List Str) : Str :=
  (if rooted then ['/'] else []) ++ joinSlash stack

/-- The byte offset `dotdot` of `path.Clean` when the first `dd` elements kept
may not be removed. -/
def ddBytes (rooted : Bool) (stack : List Str) (dd : Nat) : Nat :=
  if rooted then 1 else (joinSlash (stack.take dd)).length

/-- What holds of the elements kept by `path.Clean` and of `dotdot`. -/
def GoodStack (rooted : Bool) (st : List Str × Nat) : Prop :=
  (∀ e ∈ st.1, e ≠ [] ∧ '/' ∉ e) ∧ st.2 ≤ st.1.length ∧ (rooted = true → st.2 = 0)

/-! ## Strings and paths -/

theorem Split_ne_nil (s : Str) : Split s ≠ [] := by
  cases s with
  | nil => simp [Split]
  | cons c cs =>
    unfold Split
    split_ifs
    · simp
    · split <;> simp

theorem Split_append_slash (a b : Str) : Split (a ++ '/' :: b) = Split a ++ Split b := by
  induction a with
  | nil => simp [Split]
  | cons c cs ih =>
    by_cases hc : c = '/'
    · simp [Split, hc, ih]
    · cases hs : Split cs with
      | nil => exact absurd hs (Split_ne_nil cs)
      | cons h t => simp [Split, hc, ih, hs]

theorem Split_noSlash {s : Str} (h : '/' ∉ s) : Split s = [s] := by
  induction s with
  | nil => rfl
  | cons c cs ih =>
    simp only [List.mem_cons, not_or] at h
    have hc : c ≠ '/' := fun e => h.1 e.symm
    simp [Split, hc, ih h.2]

theorem mem_Split_noSlash {s e : Str} (h : e ∈ Split s) : '/' ∉ e := by
  induction s generalizing e with
  | nil => simp [Split] at h; simp [h]
  | cons c cs ih =>
    by_cases hc : c = '/'
    · simp only [Split, hc, if_true, List.mem_cons] at h
      rcases h with h | h
      · simp [h]
      · exact ih h
    · cases hs : Split cs with
      | nil => exact absurd hs (Split_ne_nil cs)
      | cons x t =>
        simp only [Split, hc, if_false, hs, List.mem_cons] at h
        rcases h with h | h
        · subst h
          have hx : '/' ∉ x := ih (by simp [hs])
          simp only [List.mem_cons, not_or]
          exact ⟨fun e => hc e.symm, hx⟩
        · exact ih (by simp [hs, h])

theorem joinSlash_cons (a : Str) {L : List Str} (h : L ≠ []) :
    joinSlash (a :: L) = a ++ '/' :: joinSlash L := by
  cases L with
  | nil => exact absurd rfl h
  | cons b r => rfl

theorem joinSlash_snoc {L : List Str} (h : L ≠ []) (x : Str) :
    joinSlash (L ++ [x]) = joinSlash L ++ '/' :: x := by
  induction L with
  | nil => exact absurd rfl h
  | cons a r ih =>
    cases r with
    | nil => simp [joinSlash]
    | cons b r2 =>
      have h2 : (b :: r2) ≠ [] := by simp
      have h3 : (b :: r2) ++ [x] ≠ [] := by simp
      rw [List.cons_append, joinSlash_cons a h3, ih h2, joinSlash_cons a h2]
      simp

theorem Split_joinSlash {L : List Str} (h : L ≠ []) (hs : ∀ e ∈ L, '/' ∉ e) :
    Split (joinSlash L) = L := by
  induction L with
  | nil => exact absurd rfl h
  | cons a r ih =>
    cases r with
    | nil => simpa [joinSlash] using Split_noSlash (hs a (by simp))
    | cons b r2 =>
      have h2 : (b :: r2) ≠ [] := by simp
      rw [joinSlash_cons a h2, Split_append_slash, Split_noSlash (hs a (by simp)),
        ih h2 (fun e he => hs e (List.mem_cons_of_mem _ he))]
      rfl

theorem cleanElem_seg (r : Bool) (st : List Str × Nat) {e : Str} (h : Seg e) :
    cleanElem r st e = (st.1 ++ [e], st.2) := by
  simp [cleanElem, h.1, h.2.2.1, h.2.2.2]

theorem foldl_cleanElem_seg (r : Bool) {L : List Str} (h : ∀ e ∈ L, Seg e)
    (st : List Str × Nat) : L.foldl (cleanElem r) st = (st.1 ++ L, st.2) := by
  induction L generalizing st with
  | nil => simp
  | cons a t ih =>
    rw [List.foldl_cons, cleanElem_seg r st (h a (by simp)),
      ih (fun e he => h e (List.mem_cons_of_mem _ he))]
    simp

theorem cleanElem_rooted (st : List Str × Nat) (e : Str) (h0 : st.2 = 0)
    (hs : ∀ x ∈ st.1, Seg x) (he : '/' ∉ e) :
    (cleanElem true st e).2 = 0 ∧ ∀ x ∈ (cleanElem true st e).1, Seg x := by
  unfold cleanElem
  split_ifs with h1 h2 h3 h4 h5
  · exact ⟨h0, hs⟩
  · exact ⟨h0, hs⟩
  · exact ⟨h0, fun x hx => hs x (List.mem_of_mem_dropLast hx)⟩
  · simp at h5
  · exact ⟨h0, hs⟩
  · refine ⟨h0, fun x hx => ?_⟩
    simp only [List.mem_append, List.mem_singleton] at hx
    rcases hx with hx | hx
    · exact hs x hx
    · subst hx
      exact ⟨h1, he, h2, h3⟩

theorem foldl_cleanElem_rooted (xs : List Str) (hx : ∀ e ∈ xs, '/' ∉ e)
    (st : List Str × Nat) (h0 : st.2 = 0) (hs : ∀ x ∈ st.1, Seg x) :
    (xs.foldl (cleanElem true) st).2 = 0 ∧ ∀ x ∈ (xs.foldl (cleanElem true) st).1, Seg x := by
  induction xs generalizing st with
  | nil => exact ⟨h0, hs⟩
  | cons a t ih =>
    have h := cleanElem_rooted st a h0 hs (hx a (by simp))
    exact ih (fun e he => hx e (List.mem_cons_of_mem _ he)) _ h.1 h.2

/-! ## The byte loop of `path.Clean` computes the segment view -/

theorem joinSlash_append {A B : List Str} (hA : A ≠ []) (hB : B ≠ []) :
    joinSlash (A ++ B) = joinSlash A ++ '/' :: joinSlash B := by
  induction A with
  | nil => exact absurd rfl hA
  | cons a r ih =>
    cases r with
    | nil => simp [joinSlash, joinSlash_cons a hB]
    | cons b r2 =>
      have h2 : (b :: r2) ≠ [] := by simp
      have h3 : (b :: r2) ++ B ≠ [] := by simp
      rw [List.cons_append, joinSlash_cons a h3, ih h2, joinSlash_cons a h2]
      simp

theorem joinSlash_eq_nil {L : List Str} (h : ∀ e ∈ L, e ≠ []) : joinSlash L = [] ↔ L = [] := by
  constructor
  · intro hj
    cases L with
    | nil => rfl
    | cons a r =>
      exfalso
      cases r with
      | nil => exact h a (by simp) (by simpa [joinSlash] using hj)
      | cons b r2 =>
        rw [joinSlash_cons a (by simp)] at hj
        simp at hj
  · intro hL
    subst hL
    rfl

theorem takeWhile_noSlash (rest : Str) : '/' ∉ rest.takeWhile (fun x => x ≠ '/') := by
  intro h
  have := List.mem_takeWhile_imp h
  simp at this

theorem dropWhile_head (rest : Str) :
    rest.dropWhile (fun x => x ≠ '/') = [] ∨
      ∃ u, rest.dropWhile (fun x => x ≠ '/') = '/' :: u := by
  induction rest with
  | nil => exact Or.inl rfl
  | cons c t ih =>
    by_cases hc : c = '/'
    · subst hc
      exact Or.inr ⟨t, by simp [List.dropWhile]⟩
    · simpa [List.dropWhile, hc] using ih

theorem dropWhile_length_le (rest : Str) :
    (rest.dropWhile (fun x => x ≠ '/')).length ≤ rest.length :=
  (List.dropWhile_sublist _).length_le

/-- The fold over the elements of `rest` handles the first element, then the
rest after that element. -/
theorem foldl_Split_elem (rooted : Bool) (st : List Str × Nat) (rest : Str) :
    (Split rest).foldl (cleanElem rooted) st
      = (Split (rest.dropWhile (fun x => x ≠ '/'))).foldl (cleanElem rooted)
          (cleanElem rooted st (rest.takeWhile (fun x => x ≠ '/'))) := by
  have hsplit := List.takeWhile_append_dropWhile (fun x => decide (x ≠ '/')) rest
  have hns := takeWhile_noSlash rest
  have hskip : ∀ s : List Str × Nat, cleanElem rooted s [] = s := by
    intro s; simp [cleanElem]
  rcases dropWhile_head rest with h | ⟨u, h⟩
  · rw [h] at hsplit
    rw [h]
    simp only [List.append_nil] at hsplit
    have : Split rest = [rest.takeWhile (fun x => x ≠ '/')] := by
      conv_lhs => rw [← hsplit]
      exact Split_noSlash hns
    rw [this]
    simp [Split, hskip]
  · rw [h] at hsplit
    rw [h]
    have : Split rest = rest.takeWhile (fun x => x ≠ '/') :: Split u := by
      conv_lhs => rw [← hsplit]
      rw [Split_append_slash, Split_noSlash hns]
      rfl
    rw [this]
    simp [Split, hskip]

theorem foldl_Split_slash (rooted : Bool) (st : List Str × Nat) (t : Str) :
    (Split ('/' :: t)).foldl (cleanElem rooted) st = (Split t).foldl (cleanElem rooted) st := by
  simp [Split, cleanElem]

theorem backLoop_go (d : Nat) (c : Char) (r : Str) (dropped : Char)
    (h1 : (c :: r).length > d) (h2 : dropped ≠ '/') :
    backLoop d (c :: r) dropped = backLoop d r c := by
  rw [backLoop, if_pos ⟨h1, h2⟩]

theorem backLoop_halt (d : Nat) (c : Char) (r : Str) (dropped : Char)
    (h : ¬ ((c :: r).length > d ∧ dropped ≠ '/')) :
    backLoop d (c :: r) dropped = c :: r := by
  rw [backLoop, if_neg h]

theorem backLoop_slash (d : Nat) (u Y : Str) (dropped : Char) (hu : '/' ∉ u)
    (hd : dropped ≠ '/') (hY : d ≤ Y.length) : backLoop d (u ++ '/' :: Y) dropped = Y := by
  induction u generalizing dropped with
  | nil =>
    have h1 : ('/' :: Y).length > d := by simp only [List.length_cons]; omega
    rw [List.nil_append, backLoop_go d '/' Y dropped h1 hd]
    cases Y with
    | nil => rfl
    | cons y Y2 => exact backLoop_halt d y Y2 '/' (fun h => h.2 rfl)
  | cons a u2 ih =>
    simp only [List.mem_cons, not_or] at hu
    have h1 : (a :: (u2 ++ '/' :: Y)).length > d := by
      simp only [List.length_cons, List.length_append]; omega
    rw [List.cons_append, backLoop_go d a _ dropped h1 hd]
    exact ih a hu.2 (fun e => hu.1 e.symm)

theorem backLoop_stop (d : Nat) (u Y : Str) (dropped : Char) (hu : '/' ∉ u)
    (hd : dropped ≠ '/') (hY : Y.length = d) : backLoop d (u ++ Y) dropped = Y := by
  induction u generalizing dropped with
  | nil =>
    cases Y with
    | nil => rfl
    | cons y Y2 =>
      exact backLoop_halt d y Y2 dropped (fun h => by have := h.1; omega)
  | cons a u2 ih =>
    simp only [List.mem_cons, not_or] at hu
    have h1 : (a :: (u2 ++ Y)).length > d := by
      simp only [List.length_cons, List.length_append]; omega
    rw [List.cons_append, backLoop_go d a _ dropped h1 hd]
    exact ih a hu.2 (fun e => hu.1 e.symm)

theorem backtrack_slash (d : Nat) (X e : Str) (he : e ≠ []) (hs : '/' ∉ e)
    (hX : d ≤ X.length) : backtrack d (X ++ '/' :: e) = X := by
  unfold backtrack
  have hr : (X ++ '/' :: e).reverse = e.reverse ++ '/' :: X.reverse := by simp
  rw [hr]
  cases hrev : e.reverse with
  | nil => simp at hrev; exact absurd hrev he
  | cons c r =>
    have hmem : ∀ x, x ∈ c :: r → x ∈ e := by
      intro x hx; rw [← hrev] at hx; exact List.mem_reverse.mp hx
    have hc : c ≠ '/' := fun h => hs (h ▸ hmem c (by simp))
    have hrs : '/' ∉ r := fun h => hs (hmem _ (List.mem_cons_of_mem _ h))
    simp only [List.cons_append]
    rw [backLoop_slash d r X.reverse c hrs hc (by simpa using hX)]
    simp

theorem backtrack_stop (d : Nat) (X e : Str) (he : e ≠ []) (hs : '/' ∉ e)
    (hX : X.length = d) : backtrack d (X ++ e) = X := by
  unfold backtrack
  have hr : (X ++ e).reverse = e.reverse ++ X.reverse := by simp
  rw [hr]
  cases hrev : e.reverse with
  | nil => simp at hrev; exact absurd hrev he
  | cons c r =>
    have hmem : ∀ x, x ∈ c :: r → x ∈ e := by
      intro x hx; rw [← hrev] at hx; exact List.mem_reverse.mp hx
    have hc : c ≠ '/' := fun h => hs (h ▸ hmem c (by simp))
    have hrs : '/' ∉ r := fun h => hs (hmem _ (List.mem_cons_of_mem _ h))
    simp only [List.cons_append]
    rw [backLoop_stop d r X.reverse c hrs hc (by simpa using hX)]
    simp

theorem elem_dot {c : Char} {t : Str} (h : c = '.' ∧ (t = [] ∨ t.head? = some '/')) :
    (c :: t).takeWhile (fun x => x ≠ '/') = ['.'] ∧
    (c :: t).dropWhile (fun x => x ≠ '/') = t := by
  obtain ⟨rfl, ht⟩ := h
  cases t with
  | nil => exact ⟨by decide, by decide⟩
  | cons b t2 =>
    have hb : b = '/' := by simpa using ht
    subst hb
    constructor
    · simp [List.takeWhile]
    · simp [List.dropWhile]

theorem elem_not_dot {c : Char} {t : Str}
    (h : ¬ (c = '.' ∧ (t = [] ∨ t.head? = some '/'))) :
    (c :: t).takeWhile (fun x => x ≠ '/') ≠ ['.'] := by
  intro he
  apply h
  by_cases hc : c = '/'
  · subst hc
    simp [List.takeWhile] at he
  · simp only [List.takeWhile, hc, ne_eq, not_false_eq_true, decide_True, List.cons.injEq] at he
    refine ⟨he.1, ?_⟩
    cases t with
    | nil => exact Or.inl rfl
    | cons b t2 =>
      right
      by_cases hb : b = '/'
      · simp [hb]
      · simp [List.takeWhile, hb] at he

theorem elem_dotdot {c : Char} {t : Str}
    (h : c = '.' ∧ t.head? = some '.' ∧ (t.tail = [] ∨ t.tail.head? = some '/')) :
    (c :: t).takeWhile (fun x => x ≠ '/') = ['.', '.'] ∧
    (c :: t).dropWhile (fun x => x ≠ '/') = t.tail := by
  obtain ⟨rfl, h1, h2⟩ := h
  cases t with
  | nil => simp at h1
  | cons b t2 =>
    have hb : b = '.' := by simpa using h1
    subst hb
    simp only [List.tail_cons] at h2 ⊢
    cases t2 with
    | nil => exact ⟨by decide, by decide⟩
    | cons b2 t3 =>
      have hb2 : b2 = '/' := by simpa using h2
      subst hb2
      constructor
      · simp [List.takeWhile]
      · simp [List.dropWhile]

theorem elem_not_dotdot {c : Char} {t : Str}
    (h : ¬ (c = '.' ∧ t.head? = some '.' ∧ (t.tail = [] ∨ t.tail.head? = some '/'))) :
    (c :: t).takeWhile (fun x => x ≠ '/') ≠ ['.', '.'] := by
  intro he
  apply h
  by_cases hc : c = '/'
  · subst hc
    simp [List.takeWhile] at he
  · simp only [List.takeWhile, hc, ne_eq, not_false_eq_true, decide_True, List.cons.injEq] at he
    refine ⟨he.1, ?_⟩
    cases t with
    | nil => simp [List.takeWhile] at he
    | cons b t2 =>
      by_cases hb : b = '/'
      · simp [List.takeWhile, hb] at he
      · simp only [List.takeWhile, hb, ne_eq, not_false_eq_true, decide_True,
          List.cons.injEq] at he
        refine ⟨by simp [he.2.1], ?_⟩
        simp only [List.tail_cons]
        cases t2 with
        | nil => exact Or.inl rfl
        | cons b2 t3 =>
          right
          by_cases hb2 : b2 = '/'
          · simp [hb2]
          · simp [List.takeWhile, hb2] at he

theorem elem_ne_nil {c : Char} {t : Str} (hc : c ≠ '/') :
    (c :: t).takeWhile (fun x => x ≠ '/') ≠ [] := by
  simp [List.takeWhile, hc]

theorem render_nil (rooted : Bool) : render rooted [] = if rooted then ['/'] else [] := by
  simp [render, joinSlash]

theorem render_snoc (rooted : Bool) {S : List Str} (hS : S ≠ []) (e : Str) :
    render rooted (S ++ [e]) = render rooted S ++ '/' :: e := by
  simp [render, joinSlash_snoc hS]

theorem render_single (rooted : Bool) (e : Str) :
    render rooted [e] = render rooted [] ++ e := by
  simp [render, joinSlash]

theorem render_length_nil (rooted : Bool) {S : List Str} (hS : ∀ e ∈ S, e ≠ [] ∧ '/' ∉ e) :
    (render rooted S).length = (render rooted []).length ↔ S = [] := by
  constructor
  · intro h
    simp only [render, joinSlash, List.length_append, List.length_nil, Nat.add_zero] at h
    have : (joinSlash S).length = 0 := by omega
    exact (joinSlash_eq_nil (fun e he => (hS e he).1)).mp (List.length_eq_zero.mp this)
  · intro h
    subst h
    rfl

/-- The real-element branch: add a slash if needed, copy the element. -/
theorem render_push (rooted : Bool) {S : List Str} (hS : ∀ e ∈ S, e ≠ [] ∧ '/' ∉ e) (e : Str) :
    (if (rooted && (render rooted S).length != 1) || (!rooted && (render rooted S).length != 0)
      then render rooted S ++ ['/'] else render rooted S) ++ e = render rooted (S ++ [e]) := by
  have hn := render_length_nil rooted hS
  by_cases hnil : S = []
  · subst hnil
    cases rooted <;> simp [render, joinSlash]
  · have hne : (render rooted S).length ≠ (render rooted []).length := fun h => hnil (hn.mp h)
    rw [render_snoc rooted hnil]
    cases rooted
    · have : (render false S).length ≠ 0 := by simpa [render, joinSlash] using hne
      simp [this]
    · have : (render true S).length ≠ 1 := by simpa [render, joinSlash] using hne
      simp [this]

/-- The `..` branch of a path that is not rooted, when nothing can be removed. -/
theorem render_push_dotdot {S : List Str} (hS : ∀ e ∈ S, e ≠ [] ∧ '/' ∉ e) :
    (if (render false S).length > 0 then render false S ++ ['/'] else render false S)
      ++ ['.', '.'] = render false (S ++ [['.', '.']]) := by
  have h := render_push false hS ['.', '.']
  rw [← h]
  by_cases h0 : (render false S).length = 0
  · simp [h0]
  · have : (render false S).length > 0 := Nat.pos_of_ne_zero h0
    simp [h0, this]

theorem joinSlash_take_le (L : List Str) (k : Nat) :
    (joinSlash (L.take k)).length ≤ (joinSlash L).length := by
  by_cases h1 : L.take k = []
  · rw [h1]; simp [joinSlash]
  · by_cases h2 : L.drop k = []
    · have : L.take k = L := by
        have := List.take_append_drop k L
        rw [h2, List.append_nil] at this
        exact this
      rw [this]
    · have h3 := List.take_append_drop k L
      have h4 := joinSlash_append h1 h2
      rw [h3] at h4
      rw [h4]
      simp only [List.length_append, List.length_cons]
      omega

theorem take_dropLast {α : Type} (L : List α) (k : Nat) (h : k < L.length) :
    L.dropLast.take k = L.take k := by
  rw [List.dropLast_eq_take, List.take_take]
  congr 1
  omega

/-- The comparison `out.w > dotdot` says that an element can be removed. -/
theorem render_gt_dd (rooted : Bool) (st : List Str × Nat) (h : GoodStack rooted st) :
    (render rooted st.1).length > ddBytes rooted st.1 st.2 ↔ st.1.length > st.2 := by
  obtain ⟨S, dd⟩ := st
  obtain ⟨hS, hdd, hr⟩ := h
  simp only at hS hdd hr ⊢
  cases rooted with
  | true =>
    have hd0 : dd = 0 := hr rfl
    subst hd0
    simp only [render, ddBytes, if_true, List.singleton_append, List.length_cons, gt_iff_lt,
      Nat.lt_add_left_iff_pos]
    constructor
    · intro h
      cases S with
      | nil => simp [joinSlash] at h
      | cons a r => simp
    · intro h
      have hne : S ≠ [] := by
        intro e; subst e; simp at h
      have : joinSlash S ≠ [] := fun e => hne ((joinSlash_eq_nil (fun x hx => (hS x hx).1)).mp e)
      exact List.length_pos.mpr this
  | false =>
    simp only [render, ddBytes, Bool.false_eq_true, if_false, List.nil_append, gt_iff_lt]
    constructor
    · intro h
      by_contra hle
      have heq : S.take dd = S := List.take_of_length_le (by omega)
      rw [heq] at h
      omega
    · intro h
      have h2 : S.drop dd ≠ [] := by
        intro e
        have := congrArg List.length e
        simp at this
        omega
      have hdne : ∀ x ∈ S.drop dd, x ≠ [] := fun x hx => (hS x (List.mem_of_mem_drop hx)).1
      have hj : joinSlash (S.drop dd) ≠ [] := fun e => h2 ((joinSlash_eq_nil hdne).mp e)
      have hjpos := List.length_pos.mpr hj
      by_cases h1 : S.take dd = []
      · have h3 := List.take_append_drop dd S
        rw [h1, List.nil_append] at h3
        rw [h1, ← h3]
        simpa [joinSlash] using hjpos
      · have h3 := List.take_append_drop dd S
        have h4 := joinSlash_append h1 h2
        rw [h3] at h4
        rw [h4]
        simp only [List.length_append, List.length_cons]
        omega

/-- The backtracking of the `..` branch removes the last element kept. -/
theorem render_pop (rooted : Bool) (st : List Str × Nat) (h : GoodStack rooted st)
    (hgt : st.1.length > st.2) :
    backtrack (ddBytes rooted st.1 st.2) (render rooted st.1) = render rooted st.1.dropLast := by
  obtain ⟨S, dd⟩ := st
  obtain ⟨hS, hdd, hr⟩ := h
  simp only at hS hdd hr hgt ⊢
  have hne : S ≠ [] := by
    intro e; subst e; simp at hgt
  obtain ⟨T, e, rfl⟩ : ∃ T e, S = T ++ [e] :=
    ⟨S.dropLast, S.getLast hne, (List.dropLast_append_getLast hne).symm⟩
  have he := hS e (by simp)
  rw [List.dropLast_concat]
  by_cases hT : T = []
  · subst hT
    have hd0 : dd = 0 := by simp at hgt; omega
    subst hd0
    rw [List.nil_append, render_single]
    apply backtrack_stop _ _ _ he.1 he.2
    cases rooted <;> simp [render, ddBytes, joinSlash]
  · rw [render_snoc rooted hT]
    apply backtrack_slash _ _ _ he.1 he.2
    cases rooted with
    | true => simp [render, ddBytes]
    | false =>
      simp only [render, ddBytes, Bool.false_eq_true, if_false, List.nil_append]
      have hle : dd ≤ T.length := by simp at hgt; omega
      rw [List.take_append_of_le_length hle]
      exact joinSlash_take_le T dd

theorem ddBytes_push (rooted : Bool) (S : List Str) (dd : Nat) (e : Str) (h : dd ≤ S.length) :
    ddBytes rooted (S ++ [e]) dd = ddBytes rooted S dd := by
  simp [ddBytes, List.take_append_of_le_length h]

theorem ddBytes_pop (rooted : Bool) (S : List Str) (dd : Nat) (h : dd < S.length) :
    ddBytes rooted S.dropLast dd = ddBytes rooted S dd := by
  simp [ddBytes, take_dropLast S dd h]

theorem ddBytes_full (S : List Str) :
    ddBytes false S S.length = (render false S).length := by
  simp [ddBytes, render]

theorem GoodStack_cleanElem (rooted : Bool) (st : List Str × Nat) (e : Str)
    (h : GoodStack rooted st) (he : '/' ∉ e) : GoodStack rooted (cleanElem rooted st e) := by
  obtain ⟨hS, hdd, hr⟩ := h
  unfold cleanElem
  split_ifs with h1 h2 h3 h4 h5
  · exact ⟨hS, hdd, hr⟩
  · exact ⟨hS, hdd, hr⟩
  · refine ⟨fun x hx => hS x (List.mem_of_mem_dropLast hx), ?_, hr⟩
    simp only [List.length_dropLast]
    omega
  · refine ⟨?_, by simp, ?_⟩
    · intro x hx
      simp only [List.mem_append, List.mem_singleton] at hx
      rcases hx with hx | hx
      · exact hS x hx
      · subst hx; exact ⟨h1, he⟩
    · intro hrt
      simp [hrt] at h5
  · exact ⟨hS, hdd, hr⟩
  · refine ⟨?_, by simp only [List.length_append]; omega, hr⟩
    intro x hx
    simp only [List.mem_append, List.mem_singleton] at hx
    rcases hx with hx | hx
    · exact hS x hx
    · subst hx; exact ⟨h1, he⟩

/-- The byte loop of `path.Clean`, started with the bytes of the kept elements
`st.1`, ends with the bytes of the elements kept by the fold over the
elements of `rest`. -/
theorem cleanLoop_eq (rooted : Bool) :
    ∀ (fuel : Nat) (rest : Str) (st : List Str × Nat), rest.length ≤ fuel →
      GoodStack rooted st →
      cleanLoop rooted fuel rest (render rooted st.1) (ddBytes rooted st.1 st.2)
        = render rooted ((Split rest).foldl (cleanElem rooted) st).1 := by
  intro fuel
  induction fuel with
  | zero =>
    intro rest st hl _
    have : rest = [] := List.length_eq_zero.mp (Nat.le_zero.mp hl)
    subst this
    simp [cleanLoop, Split, cleanElem]
  | succ n ih =>
    intro rest st hl hg
    cases rest with
    | nil => simp [cleanLoop, Split, cleanElem]
    | cons c t =>
      have htl : t.length ≤ n := by simp only [List.length_cons] at hl; omega
      rw [cleanLoop]
      by_cases hc : c = '/'
      · subst hc
        rw [if_pos rfl, foldl_Split_slash]
        exact ih t st htl hg
      · rw [if_neg hc, foldl_Split_elem rooted st (c :: t)]
        by_cases h2 : c = '.' ∧ (t = [] ∨ t.head? = some '/')
        · rw [if_pos h2]
          obtain ⟨e1, e2⟩ := elem_dot h2
          rw [e1, e2]
          have hskip : cleanElem rooted st ['.'] = st := by simp [cleanElem]
          rw [hskip]
          exact ih t st htl hg
        · rw [if_neg h2]
          by_cases h3 : c = '.' ∧ t.head? = some '.' ∧ (t.tail = [] ∨ t.tail.head? = some '/')
          · rw [if_pos h3]
            obtain ⟨e1, e2⟩ := elem_dotdot h3
            rw [e1, e2]
            have htl2 : t.tail.length ≤ n := by
              have := List.length_tail t
              omega
            have hgood := GoodStack_cleanElem rooted st ['.', '.'] hg (by decide)
            by_cases hgt : st.1.length > st.2
            · have hb := (render_gt_dd rooted st hg).mpr hgt
              rw [if_pos hb, render_pop rooted st hg hgt]
              have hce : cleanElem rooted st ['.', '.'] = (st.1.dropLast, st.2) := by
                simp [cleanElem, hgt]
              rw [hce] at hgood ⊢
              have := ih t.tail (st.1.dropLast, st.2) htl2 hgood
              simp only at this
              rw [ddBytes_pop rooted st.1 st.2 hgt] at this
              exact this
            · have hb : ¬ (render rooted st.1).length > ddBytes rooted st.1 st.2 :=
                fun h => hgt ((render_gt_dd rooted st hg).mp h)
              rw [if_neg hb]
              cases rooted with
              | true =>
                have hce : cleanElem true st ['.', '.'] = st := by
                  simp [cleanElem, hgt]
                rw [hce]
                simp only [Bool.not_true, Bool.false_eq_true, if_false]
                exact ih t.tail st htl2 hg
              | false =>
                have hce : cleanElem false st ['.', '.']
                    = (st.1 ++ [['.', '.']], st.1.length + 1) := by
                  simp [cleanElem, hgt]
                rw [hce] at hgood ⊢
                simp only [Bool.not_false, if_true]
                have hpush := render_push_dotdot hg.1
                have hlen : (if (render false st.1).length > 0 then render false st.1 ++ ['/']
                    else render false st.1).length + 2
                      = ddBytes false (st.1 ++ [['.', '.']]) (st.1.length + 1) := by
                  have h1 := ddBytes_full (st.1 ++ [['.', '.']])
                  simp only [List.length_append, List.length_singleton] at h1
                  rw [h1, ← hpush]
                  simp
                rw [hlen, hpush]
                exact ih t.tail (st.1 ++ [['.', '.']], st.1.length + 1) htl2 hgood
          · rw [if_neg h3]
            have hn1 := elem_ne_nil (t := t) hc
            have hn2 := elem_not_dot h2
            have hn3 := elem_not_dotdot h3
            have hgood := GoodStack_cleanElem rooted st _ hg (takeWhile_noSlash (c :: t))
            have hce : cleanElem rooted st ((c :: t).takeWhile (fun x => x ≠ '/'))
                = (st.1 ++ [(c :: t).takeWhile (fun x => x ≠ '/')], st.2) := by
              simp only [cleanElem, hn1, hn2, hn3, if_false]
            rw [hce] at hgood ⊢
            rw [render_push rooted hg.1]
            have hdl : ((c :: t).dropWhile (fun x => x ≠ '/')).length ≤ n := by
              have h1 : (c :: t).dropWhile (fun x => x ≠ '/')
                  = t.dropWhile (fun x => x ≠ '/') := by
                simp [List.dropWhile, hc]
              rw [h1]
              exact Nat.le_trans (dropWhile_length_le t) htl
            have := ih _ _ hdl hgood
            simp only at this
            rw [ddBytes_push rooted st.1 st.2 _ hg.2.1] at this
            exact this

/-- The byte loop of `path.Clean` computes the segment view. -/
theorem Clean_eq_cleanSegs (path : Str) : Clean path = cleanSegs path := by
  unfold Clean cleanSegs
  by_cases hp : path = []
  · simp [hp]
  · rw [if_neg hp, if_neg hp]
    cases path with
    | nil => exact absurd rfl hp
    | cons c t =>
      have hg0 : ∀ r, GoodStack r ([], 0) := fun r => ⟨by simp, by simp, fun _ => rfl⟩
      by_cases hc : c = '/'
      · subst hc
        have h := cleanLoop_eq true ('/' :: t).length t ([], 0) (by simp) (hg0 true)
        have hr : render true [] = ['/'] := rfl
        have hd : ddBytes true [] 0 = 1 := rfl
        rw [hr, hd] at h
        simp only [List.head?_cons, beq_self_eq_true, if_true, List.tail_cons]
        rw [h, foldl_Split_slash]
        simp [render]
      · have h := cleanLoop_eq false (c :: t).length (c :: t) ([], 0) (Nat.le_refl _) (hg0 false)
        have hr : render false [] = [] := rfl
        have hd : ddBytes false [] 0 = 0 := rfl
        rw [hr, hd] at h
        have hh : ((c :: t).head? == some '/') = false := by simp [hc]
        simp only [hh, Bool.false_eq_true, if_false]
        rw [h]
        have hgood : GoodStack false ((Split (c :: t)).foldl (cleanElem false) ([], 0)) := by
          have key : ∀ (xs : List Str) (st : List Str × Nat), (∀ e ∈ xs, '/' ∉ e) →
              GoodStack false st → GoodStack false (xs.foldl (cleanElem false) st) := by
            intro xs
            induction xs with
            | nil => intro st _ h; exact h
            | cons a r ih =>
              intro st hx hst
              exact ih _ (fun e he => hx e (List.mem_cons_of_mem _ he))
                (GoodStack_cleanElem false st a hst (hx a (by simp)))
          exact key _ _ (fun e he => mem_Split_noSlash he) (hg0 false)
        have hnil := joinSlash_eq_nil (fun e he => (hgood.1 e he).1)
        by_cases ho : ((Split (c :: t)).foldl (cleanElem false) ([], 0)).1 = []
        · simp [render, ho, joinSlash]
        · have : joinSlash ((Split (c :: t)).foldl (cleanElem false) ([], 0)).1 ≠ [] :=
            fun e => ho (hnil.mp e)
          simp [render, ho, this]

/-! ## The models of the library functions on examples -/

/-- The model of `path.Clean` on rows of the table of the Go test `TestClean`. -/
theorem Clean_examples :
    Clean "".toList = ".".toList ∧
    Clean "abc".toList = "abc".toList ∧
    Clean "/".toList = "/".toList ∧
    Clean "abc/".toList = "abc".toList ∧
    Clean "../../".toList = "../..".toList ∧
    Clean "/abc/".toList = "/abc".toList ∧
    Clean "abc//def//ghi".toList = "abc/def/ghi".toList ∧
    Clean "//abc//".toList = "/abc".toList ∧
    Clean "/./abc/def".toList = "/abc/def".toList ∧
    Clean "abc/def/../ghi/../jkl".toList = "abc/jkl".toList ∧
    Clean "abc/def/../..".toList = ".".toList ∧
    Clean "/abc/def/../../..".toList = "/".toList ∧
    Clean "abc/def/../../../ghi/jkl/../../../mno".toList = "../../mno".toList ∧
    Clean "abc/../../././../def".toList = "../../def".toList := by
  decide

/-- The model of `path.Join` on rows of the table of the Go test `TestJoin`. -/
theorem Join_examples :
    Join [] = [] ∧
    Join ["".toList] = [] ∧
    Join ["a".toList, "b".toList] = "a/b".toList ∧
    Join ["a".toList, "".toList] = "a".toList ∧
    Join ["".toList, "b".toList] = "b".toList ∧
    Join ["/".toList, "a".toList] = "/a".toList ∧
    Join ["/".toList, "".toList] = "/".toList ∧
    Join ["a/".toList, "b".toList] = "a/b".toList ∧
    Join ["".toList, "".toList] = [] := by
  decide

/-- The model of `strings.Split(s, "/")` on examples. -/
theorem Split_examples :
    Split "".toList = ["".toList] ∧
    Split "/".toList = ["".toList, "".toList] ∧
    Split "a/b/c".toList = ["a".toList, "b".toList, "c".toList] ∧
    Split "/pools/scraper".toList = ["".toList, "pools".toList, "scraper".toList] := by
  decide

/-- The list handed to the bootstrap loop holds `parts[1], ..., parts[len-2]`,
the elements that `for i := 1; i < len(parts)-1; i++` visits. -/
theorem loop_range (parts : List Str) :
    ((parts.drop 1).dropLast).length = parts.length - 1 - 1 ∧
    ∀ k, k < parts.length - 1 - 1 → ((parts.drop 1).dropLast)[k]? = parts[k + 1]? := by
  constructor
  · simp
  · intro k hk
    rw [List.dropLast_eq_take, List.getElem?_take_of_lt (by simp; omega), List.getElem?_drop]
    congr 1
    omega

theorem Clean_rooted (r : Str) :
    Clean ('/' :: r) = '/' :: joinSlash (rootElems ('/' :: r)) := by
  rw [Clean_eq_cleanSegs]
  simp [cleanSegs, rootElems]

theorem Split_slash_joinSlash {M : List Str} (h : M ≠ []) (hs : ∀ e ∈ M, '/' ∉ e) :
    Split ('/' :: joinSlash M) = [] :: M := by
  simp [Split, Split_joinSlash h hs]

theorem Clean_rooted_append (r : Str) {L : List Str} (hne : L ≠ []) (hL : ∀ e ∈ L, Seg e) :
    Clean (('/' :: r) ++ '/' :: joinSlash L)
      = '/' :: joinSlash (rootElems ('/' :: r) ++ L) := by
  have hs : Split (('/' :: r) ++ '/' :: joinSlash L) = Split ('/' :: r) ++ L := by
    rw [Split_append_slash, Split_joinSlash hne (fun e he => (hL e he).2.1)]
  have hc := Clean_rooted (r ++ '/' :: joinSlash L)
  rw [List.cons_append, hc]
  unfold rootElems
  rw [← List.cons_append, hs, List.foldl_append, foldl_cleanElem_seg true hL]

theorem rootElems_seg (p : Str) : ∀ e ∈ rootElems p, Seg e :=
  (foldl_cleanElem_rooted (Split p) (fun _ he => mem_Split_noSlash he) ([], 0) rfl
    (by simp)).2

theorem rootElems_slash_joinSlash {M : List Str} (h : M ≠ []) (hM : ∀ e ∈ M, Seg e) :
    rootElems ('/' :: joinSlash M) = M := by
  unfold rootElems
  rw [Split_slash_joinSlash h (fun e he => (hM e he).2.1), List.foldl_cons]
  have : cleanElem true ([], 0) [] = ([], 0) := by simp [cleanElem]
  rw [this, foldl_cleanElem_seg true hM]
  simp

theorem seg_scraper : Seg "scraper".toList := by decide

theorem seg_scrapers : Seg "scrapers".toList := by decide

/-- For an absolute root the pool path is the cleaned root followed by
`scraper/scrapers`. -/
theorem poolPath_eq (r : Str) :
    Join ['/' :: r, "scraper".toList, "scrapers".toList]
      = '/' :: joinSlash (poolElems ('/' :: r)) := by
  have hL : ∀ e ∈ ["scraper".toList, "scrapers".toList], Seg e := by
    intro e he
    simp only [List.mem_cons, List.mem_singleton, List.not_mem_nil, or_false] at he
    rcases he with he | he <;> subst he
    · exact seg_scraper
    · exact seg_scrapers
  have := Clean_rooted_append r (by simp) hL
  simpa [Join, joinSlash, poolElems] using this

theorem poolElems_seg (p : Str) : ∀ e ∈ poolElems p, Seg e := by
  intro e he
  simp only [poolElems, List.mem_append, List.mem_cons, List.mem_singleton,
    List.not_mem_nil, or_false] at he
  rcases he with he | he | he
  · exact rootElems_seg p e he
  · subst he; exact seg_scraper
  · subst he; exact seg_scrapers

theorem poolElems_ne_nil (p : Str) : poolElems p ≠ [] := by
  simp [poolElems]

/-- The member path, computed as the code does from the pool path. -/
theorem mypath_eq (r : Str) {id : Str} (hid : Seg id) (p : Pool)
    (hp : p.path = Join ['/' :: r, "scraper".toList, "scrapers".toList]) (hi : p.id = id) :
    mypath p = '/' :: joinSlash (poolElems ('/' :: r) ++ [id]) := by
  have hL : ∀ e ∈ [id], Seg e := by simp [hid]
  have h1 := Clean_rooted_append (joinSlash (poolElems ('/' :: r))) (L := [id]) (by simp) hL
  rw [rootElems_slash_joinSlash (poolElems_ne_nil _) (poolElems_seg _)] at h1
  have hne : id ≠ [] := hid.1
  unfold mypath
  rw [hp, hi, poolPath_eq]
  simpa [Join, joinSlash, hne] using h1

/-- The member path of the four-element join equals the one the code computes. -/
theorem join4_eq (r : Str) {id : Str} (hid : Seg id) :
    Join ['/' :: r, "scraper".toList, "scrapers".toList, id]
      = '/' :: joinSlash (poolElems ('/' :: r) ++ [id]) := by
  have hL : ∀ e ∈ ["scraper".toList, "scrapers".toList, id], Seg e := by
    intro e he
    simp only [List.mem_cons, List.mem_singleton, List.not_mem_nil, or_false] at he
    rcases he with he | he | he <;> subst he
    · exact seg_scraper
    · exact seg_scrapers
    · exact hid
  have := Clean_rooted_append r (by simp) hL
  simpa [Join, joinSlash, poolElems] using this

theorem visited_parts (M : List Str) (id : Str) (hM : ∀ e ∈ M, Seg e) (hid : Seg id) :
    ((Split ('/' :: joinSlash (M ++ [id]))).drop 1).dropLast = M := by
  have hs : ∀ e ∈ M ++ [id], '/' ∉ e := by
    intro e he
    simp only [List.mem_append, List.mem_singleton] at he
    rcases he with he | he
    · exact (hM e he).2.1
    · subst he; exact hid.2.1
  rw [Split_slash_joinSlash (by simp) hs]
  simp

theorem ancestorsAux_noSlash (acc : Str) {x : Str} (h : '/' ∉ x) : ancestorsAux acc x = [] := by
  induction x generalizing acc with
  | nil => rfl
  | cons ch t ih =>
    simp only [List.mem_cons, not_or] at h
    have hc : ch ≠ '/' := fun e => h.1 e.symm
    simp [ancestorsAux, hc, ih _ h.2]

theorem ancestorsAux_append_noSlash (acc : Str) {a : Str} (h : '/' ∉ a) (rest : Str) :
    ancestorsAux acc (a ++ rest) = ancestorsAux (acc ++ a) rest := by
  induction a generalizing acc with
  | nil => simp
  | cons ch t ih =>
    simp only [List.mem_cons, not_or] at h
    have hc : ch ≠ '/' := fun e => h.1 e.symm
    simp [ancestorsAux, hc, ih _ h.2]

theorem ancestorsAux_stems (A : List Str) (acc x : Str) (hA : ∀ e ∈ A, '/' ∉ e)
    (hx : '/' ∉ x) :
    ancestorsAux acc ('/' :: joinSlash (A ++ [x]))
      = (if acc ≠ [] then [acc] else []) ++ stems A acc := by
  induction A generalizing acc with
  | nil =>
    simp [ancestorsAux, joinSlash, stems, ancestorsAux_noSlash _ hx]
  | cons a t ih =>
    have hne : t ++ [x] ≠ [] := by simp
    have ha : '/' ∉ a := hA a (by simp)
    rw [List.cons_append, joinSlash_cons a hne]
    simp only [ancestorsAux, true_and]
    rw [ancestorsAux_append_noSlash _ ha, ih _ (fun e he => hA e (List.mem_cons_of_mem _ he))]
    simp [stems]

/-- What `ancestors` computes: the non-empty strings followed in `p` by a slash. -/
theorem mem_ancestorsAux (acc rest q : Str) :
    q ∈ ancestorsAux acc rest ↔ q ≠ [] ∧ ∃ a r, rest = a ++ '/' :: r ∧ q = acc ++ a := by
  induction rest generalizing acc with
  | nil => simp [ancestorsAux]
  | cons ch t ih =>
    simp only [ancestorsAux, List.mem_append, ih]
    constructor
    · rintro (h | ⟨hq, a, r, h1, h2⟩)
      · split_ifs at h with hc
        · simp only [List.mem_singleton] at h
          subst h
          exact ⟨hc.2, [], t, by simp [hc.1], by simp⟩
        · simp at h
      · exact ⟨hq, ch :: a, r, by simp [h1], by simp [h2]⟩
    · rintro ⟨hq, a, r, h1, h2⟩
      cases a with
      | nil =>
        left
        simp only [List.nil_append, List.cons.injEq] at h1
        simp only [List.append_nil] at h2
        subst h2
        simp [h1.1, hq]
      | cons b a2 =>
        right
        simp only [List.cons_append, List.cons.injEq] at h1
        refine ⟨hq, a2, r, h1.2, ?_⟩
        simp [h2, h1.1]

theorem mem_ancestors (p q : Str) :
    q ∈ ancestors p ↔ q ≠ [] ∧ ∃ r, p = q ++ '/' :: r := by
  unfold ancestors
  rw [mem_ancestorsAux]
  constructor
  · rintro ⟨hq, a, r, h1, h2⟩
    exact ⟨hq, r, by simp [h1, h2]⟩
  · rintro ⟨hq, r, h⟩
    exact ⟨hq, q, r, h, by simp⟩

theorem existsPaths_append (a b : List Ev) :
    existsPaths (a ++ b) = existsPaths a ++ existsPaths b := by
  induction a with
  | nil => rfl
  | cons e t ih => cases e <;> simp [existsPaths, ih]

theorem existsPaths_visits (ps : List Str) (rs : List (Bool × Str))
    (h : rs.length = ps.length) : existsPaths (visits ps rs) = ps := by
  induction ps generalizing rs with
  | nil => cases rs <;> simp [visits, existsPaths]
  | cons p t ih =>
    cases rs with
    | nil => simp at h
    | cons r rs2 =>
      simp only [List.length_cons, add_left_inj] at h
      rw [visits, existsPaths_append, ih rs2 h]
      cases hr : r.1 <;> simp [visit, existsPaths]

theorem stems_length (A : List Str) (acc : Str) : (stems A acc).length = A.length := by
  induction A generalizing acc with
  | nil => rfl
  | cons a t ih => simp [stems, ih]

/-- A bootstrap loop that did not reach `log.Fatal` made exactly the calls of a
successful visit of each value of `acc`, in order. -/
theorem ensurePath_ok {σ : Type} (c : Client σ) (A : List Str) (acc : Str) (zk : σ)
    (h : (ensurePath c A acc zk).fatal = false) :
    ∃ rs : List (Bool × Str), rs.length = A.length ∧
      (ensurePath c A acc zk).tr = visits (stems A acc) rs := by
  induction A generalizing acc zk with
  | nil => exact ⟨[], rfl, rfl⟩
  | cons a t ih =>
    unfold ensurePath at h ⊢
    simp only at h ⊢
    split at h
    · simp at h
    · rename_i zk1 heq
      obtain ⟨rs, h1, h2⟩ := ih _ zk1 h
      refine ⟨(true, []) :: rs, by simp [h1], ?_⟩
      simp [heq, stems, visits, visit, h2]
    · rename_i zk1 heq
      split at h
      · simp at h
      · rename_i created zk2 heq2
        obtain ⟨rs, h1, h2⟩ := ih _ zk2 h
        refine ⟨(false, created) :: rs, by simp [h1], ?_⟩
        simp [heq, heq2, stems, visits, visit, h2]

/-! ## The state machine: finished goroutines and the first step -/

theorem act_ids {σ : Type} {c : Client σ} {s s1 : Sys σ} {a : Action}
    (h : act c s a = some s1) : s1.pool.id = s.pool.id ∧ s1.pool.path = s.pool.path := by
  cases a with
  | task ch =>
    cases ch with
    | cancel =>
      simp only [act, runStep] at h
      split at h <;> first | (split_ifs at h; cases h; exact ⟨rfl, rfl⟩) | cases h
    | proceed =>
      simp only [act, runStep] at h
      split at h
      · cases h
        unfold runInit
        simp only
        split_ifs
        · exact ⟨rfl, rfl⟩
        · split <;> exact ⟨rfl, rfl⟩
      · split_ifs at h; cases h; exact ⟨rfl, rfl⟩
      · split at h <;> (cases h; exact ⟨rfl, rfl⟩)
      · split_ifs at h; cases h; exact ⟨rfl, rfl⟩
      · split_ifs at h; cases h; exact ⟨rfl, rfl⟩
      · cases h
  | stop =>
    simp only [act, Stop, Option.some.injEq] at h
    subst h
    simp only [Pool.Stop]
    split_ifs <;> exact ⟨rfl, rfl⟩
  | recvOn => simp only [act, Option.some.injEq] at h; subst h; exact ⟨rfl, rfl⟩
  | recvOff => simp only [act, Option.some.injEq] at h; subst h; exact ⟨rfl, rfl⟩
  | fire => simp only [act] at h; split_ifs at h; cases h; exact ⟨rfl, rfl⟩
  | wake => simp only [act] at h; split_ifs at h; cases h; exact ⟨rfl, rfl⟩

theorem Stop_core {σ : Type} (s : Sys σ) : (Stop s).core = s.core := by
  simp only [Stop, Sys.core, Pool.Stop]
  split_ifs <;> rfl

/-- Every action other than a step of the goroutine and the timer leaves the
core alone. -/
theorem act_env_core {σ : Type} {c : Client σ} {s s1 : Sys σ} {a : Action}
    (h : act c s a = some s1) (ht : ∀ ch, a ≠ .task ch) (hw : a ≠ .wake) :
    s1.core = s.core := by
  cases a with
  | task ch => exact absurd rfl (ht ch)
  | stop => simp only [act, Option.some.injEq] at h; subst h; exact Stop_core s
  | recvOn => simp only [act, Option.some.injEq] at h; subst h; rfl
  | recvOff => simp only [act, Option.some.injEq] at h; subst h; rfl
  | fire => simp only [act] at h; split_ifs at h; cases h; rfl
  | wake => exact absurd rfl hw

/-- A goroutine that has returned or was killed by `log.Fatal` takes no step. -/
theorem runStep_terminal {σ : Type} (c : Client σ) {s : Sys σ}
    (hpc : s.pc = .exited ∨ s.pc = .fatal) (ch : Choice) : runStep c s ch = none := by
  rcases hpc with h | h <;> cases ch <;> simp [runStep, h]

theorem act_terminal {σ : Type} {c : Client σ} {s s1 : Sys σ} {a : Action}
    (hpc : s.pc = .exited ∨ s.pc = .fatal) (h : act c s a = some s1) : s1.core = s.core := by
  by_cases ht : ∃ ch, a = .task ch
  · obtain ⟨ch, rfl⟩ := ht
    simp [act, runStep_terminal c hpc] at h
  · by_cases hw : a = .wake
    · subst hw
      rcases hpc with h2 | h2 <;> simp [act, h2] at h
    · exact act_env_core h (fun ch e => ht ⟨ch, e⟩) hw

/-- Invariants of single transitions are invariants of runs. -/
theorem exec_invariant {σ : Type} {c : Client σ} (P : Sys σ → Prop)
    (hstep : ∀ s a s1, P s → act c s a = some s1 → P s1) :
    ∀ (as : List Action) (s s1 : Sys σ), P s → exec c s as = some s1 → P s1 := by
  intro as
  induction as with
  | nil =>
    intro s s1 hP h
    simp only [exec, Option.some.injEq] at h
    exact h ▸ hP
  | cons a t ih =>
    intro s s1 hP h
    simp only [exec] at h
    split at h
    · cases h
    · rename_i s2 heq
      exact ih s2 s1 (hstep s a s2 hP heq) h

theorem exec_terminal {σ : Type} {c : Client σ} {s s1 : Sys σ} (as : List Action)
    (hpc : s.pc = .exited ∨ s.pc = .fatal) (h : exec c s as = some s1) : s1.core = s.core := by
  refine exec_invariant (fun x => x.core = s.core) ?_ as s s1 rfl h
  intro x a x1 hx hact
  have hxpc : x.pc = .exited ∨ x.pc = .fatal := by
    have : x.pc = s.pc := congrArg Prod.fst hx
    rw [this]; exact hpc
  rw [act_terminal hxpc hact]; exact hx

theorem runInit_pc {σ : Type} (c : Client σ) (s : Sys σ) :
    (runInit c s).pc = .fatal ∨ (runInit c s).pc = .exited ∨ (runInit c s).pc = .loopTop := by
  unfold runInit
  simp only
  split_ifs
  · exact Or.inl rfl
  · split
    · exact Or.inr (Or.inl rfl)
    · exact Or.inr (Or.inr rfl)

/-- The first step reads only `p.id`, `p.path` and the core. -/
theorem runInit_core_congr {σ : Type} (c : Client σ) {s t : Sys σ}
    (hid : s.pool.id = t.pool.id) (hpath : s.pool.path = t.pool.path) (hc : s.core = t.core) :
    (runInit c s).core = (runInit c t).core := by
  obtain ⟨sp, spc, szk, sr, se, str, ssent, ssl⟩ := s
  obtain ⟨tp, tpc, tzk, tr, te, ttr, tsent, tsl⟩ := t
  obtain ⟨sid, spath, sdone, sout, sonce⟩ := sp
  obtain ⟨tid, tpath, tdone, tout, tonce⟩ := tp
  simp only [Sys.core, Prod.mk.injEq] at hc
  obtain ⟨h1, h2, h3, h4, h5, h6⟩ := hc
  simp only at hid hpath h3
  subst hid hpath h1 h2 h3 h4 h5 h6
  unfold runInit bootstrap mypath
  simp only
  split_ifs
  · rfl
  · split <;> rfl

/-- From the start of the goroutine: either it has not run yet, or it went into
the watch loop, or the state is frozen as the first step left it. -/
theorem exec_from_start {σ : Type} {c : Client σ} {s0 s : Sys σ} (as : List Action)
    (h0 : s0.pc = .start) (h : exec c s0 as = some s) :
    s.core = s0.core ∨ (runInit c s0).pc = .loopTop ∨ s.core = (runInit c s0).core := by
  have key := exec_invariant (c := c)
    (fun x => (x.pool.id = s0.pool.id ∧ x.pool.path = s0.pool.path) ∧
      (x.core = s0.core ∨ (runInit c s0).pc = .loopTop ∨ x.core = (runInit c s0).core))
    ?_ as s0 s ⟨⟨rfl, rfl⟩, Or.inl rfl⟩ h
  · exact key.2
  · rintro x a x1 ⟨⟨hid, hpath⟩, hx⟩ hact
    have hids := act_ids hact
    refine ⟨⟨hids.1.trans hid, hids.2.trans hpath⟩, ?_⟩
    rcases hx with hx | hx | hx
    · have hxpc : x.pc = .start := (congrArg Prod.fst hx).trans h0
      by_cases ht : a = .task .proceed
      · subst ht
        simp only [act, runStep, hxpc, Option.some.injEq] at hact
        subst hact
        exact Or.inr (Or.inr (runInit_core_congr c hid hpath hx))
      · by_cases ht2 : a = .task .cancel
        · subst ht2
          simp [act, runStep, hxpc] at hact
        · by_cases hw : a = .wake
          · subst hw
            simp [act, hxpc] at hact
          · left
            rw [act_env_core hact ?_ hw]
            · exact hx
            · intro ch e
              cases ch
              · exact ht2 e
              · exact ht e
    · exact Or.inr (Or.inl hx)
    · rcases runInit_pc c s0 with hp | hp | hp
      · right; right
        have hxpc : x.pc = .exited ∨ x.pc = .fatal :=
          Or.inr ((congrArg Prod.fst hx).trans hp)
        rw [act_terminal hxpc hact]; exact hx
      · right; right
        have hxpc : x.pc = .exited ∨ x.pc = .fatal :=
          Or.inl ((congrArg Prod.fst hx).trans hp)
        rw [act_terminal hxpc hact]; exact hx
      · exact Or.inr (Or.inl hp)

/-! ## The bootstrap loop -/

theorem ensurePath_isBoot {σ : Type} (c : Client σ) (A : List Str) (acc : Str) (zk : σ) :
    ∀ ev ∈ (ensurePath c A acc zk).tr, ev.isBoot = true := by
  induction A generalizing acc zk with
  | nil => simp [ensurePath]
  | cons a t ih =>
    unfold ensurePath
    simp only
    split
    · simp [Ev.isBoot]
    · intro ev hev
      simp only [List.mem_cons] at hev
      rcases hev with hev | hev
      · subst hev; rfl
      · exact ih _ _ ev hev
    · split
      · intro ev hev
        simp only [List.mem_cons, List.mem_singleton, List.not_mem_nil, or_false] at hev
        rcases hev with hev | hev <;> subst hev <;> simp [Ev.isBoot]
      · intro ev hev
        simp only [List.mem_cons] at hev
        rcases hev with hev | hev | hev
        · subst hev; rfl
        · subst hev; simp [Ev.isBoot]
        · exact ih _ _ ev hev

theorem visits_not_failed (ps : List Str) (rs : List (Bool × Str)) :
    ∀ ev ∈ visits ps rs, ev.failed = false := by
  induction ps generalizing rs with
  | nil => cases rs <;> simp [visits]
  | cons p t ih =>
    cases rs with
    | nil => simp [visits]
    | cons r rs2 =>
      intro ev hev
      simp only [visits, List.mem_append] at hev
      rcases hev with hev | hev
      · unfold visit at hev
        split_ifs at hev
        · simp only [List.mem_singleton] at hev; subst hev; rfl
        · simp only [List.mem_cons, List.mem_singleton, List.not_mem_nil, or_false] at hev
          rcases hev with hev | hev <;> subst hev <;> rfl
      · exact ih rs2 ev hev

theorem createPaths_visits (ps : List Str) (rs : List (Bool × Str)) :
    ∀ q ∈ createPaths (visits ps rs), q ∈ ps := by
  induction ps generalizing rs with
  | nil => cases rs <;> simp [visits, createPaths]
  | cons p t ih =>
    cases rs with
    | nil => simp [visits, createPaths]
    | cons r rs2 =>
      intro q hq
      cases hr : r.1
      · simp only [visits, visit, hr, Bool.false_eq_true, if_false, List.cons_append,
          List.nil_append, createPaths, List.mem_cons] at hq
        rcases hq with hq | hq
        · simp [hq]
        · exact List.mem_cons_of_mem _ (ih rs2 q hq)
      · simp only [visits, visit, hr, if_true, List.cons_append, List.nil_append,
          createPaths] at hq
        exact List.mem_cons_of_mem _ (ih rs2 q hq)

/-- A bootstrap loop that reached `log.Fatal` ends its trace with the failed
call: a failed `Exists`, or a failed persistent `Create` right after the
`Exists` that reported the node absent.  Every earlier call succeeded. -/
theorem ensurePath_fatal {σ : Type} (c : Client σ) (A : List Str) (acc : Str) (zk : σ)
    (h : (ensurePath c A acc zk).fatal = true) :
    ∃ pre, (∀ x ∈ pre, x.failed = false) ∧
      ((∃ p e, (ensurePath c A acc zk).tr = pre ++ [Ev.Exists p (.error e)]) ∨
       (∃ p e, (ensurePath c A acc zk).tr
          = pre ++ [Ev.Exists p (.ok false), Ev.Create p [] 0 (WorldACL PermAll) (.error e)])) := by
  induction A generalizing acc zk with
  | nil => simp [ensurePath] at h
  | cons a t ih =>
    unfold ensurePath at h ⊢
    simp only at h ⊢
    split at h
    · rename_i e zk1 heq
      exact ⟨[], by simp, Or.inl ⟨acc ++ '/' :: a, e, by simp [heq]⟩⟩
    · rename_i zk1 heq
      obtain ⟨pre, h1, h2⟩ := ih _ zk1 h
      refine ⟨Ev.Exists (acc ++ '/' :: a) (.ok true) :: pre, ?_, ?_⟩
      · intro x hx
        simp only [List.mem_cons] at hx
        rcases hx with hx | hx
        · subst hx; rfl
        · exact h1 x hx
      · rcases h2 with ⟨p, e, h2⟩ | ⟨p, e, h2⟩
        · exact Or.inl ⟨p, e, by simp [heq, h2]⟩
        · exact Or.inr ⟨p, e, by simp [heq, h2]⟩
    · rename_i zk1 heq
      split at h
      · rename_i e zk2 heq2
        exact ⟨[], by simp, Or.inr ⟨acc ++ '/' :: a, e, by simp [heq, heq2]⟩⟩
      · rename_i created zk2 heq2
        obtain ⟨pre, h1, h2⟩ := ih _ zk2 h
        refine ⟨Ev.Exists (acc ++ '/' :: a) (.ok false) ::
          Ev.Create (acc ++ '/' :: a) [] 0 (WorldACL PermAll) (.ok created) :: pre, ?_, ?_⟩
        · intro x hx
          simp only [List.mem_cons] at hx
          rcases hx with hx | hx | hx
          · subst hx; rfl
          · subst hx; rfl
          · exact h1 x hx
        · rcases h2 with ⟨p, e, h2⟩ | ⟨p, e, h2⟩
          · exact Or.inl ⟨p, e, by simp [heq, heq2, h2]⟩
          · exact Or.inr ⟨p, e, by simp [heq, heq2, h2]⟩

/-- A failed call in the trace of the bootstrap loop means `log.Fatal`. -/
theorem ensurePath_failed_fatal {σ : Type} (c : Client σ) (A : List Str) (acc : Str) (zk : σ)
    (h : ∃ ev ∈ (ensurePath c A acc zk).tr, ev.failed = true) :
    (ensurePath c A acc zk).fatal = true := by
  by_contra hf
  simp only [Bool.not_eq_true] at hf
  obtain ⟨rs, _, h2⟩ := ensurePath_ok c A acc zk hf
  obtain ⟨ev, hev, hfail⟩ := h
  rw [h2] at hev
  simp [visits_not_failed _ _ ev hev] at hfail

theorem stems_snoc (A : List Str) (x acc : Str) :
    stems (A ++ [x]) acc = stems A acc ++ [acc ++ '/' :: joinSlash (A ++ [x])] := by
  induction A generalizing acc with
  | nil => simp [stems, joinSlash]
  | cons a t ih =>
    have hne : t ++ [x] ≠ [] := by simp
    rw [List.cons_append, stems, ih, stems, joinSlash_cons a hne]
    simp

theorem dropWhile_append_all {α : Type} (p : α → Bool) (a b : List α) (h : ∀ x ∈ a, p x = true) :
    (a ++ b).dropWhile p = b.dropWhile p := by
  induction a with
  | nil => rfl
  | cons x t ih =>
    simp [List.dropWhile, h x (by simp), ih (fun y hy => h y (List.mem_cons_of_mem _ hy))]

theorem parentOf_child (q : Str) {name : Str} (h : '/' ∉ name) :
    parentOf (q ++ '/' :: name) = q := by
  unfold parentOf
  have h1 : (q ++ '/' :: name).reverse = name.reverse ++ '/' :: q.reverse := by simp
  rw [h1, dropWhile_append_all]
  · simp [List.dropWhile]
  · intro x hx
    have : x ≠ '/' := fun e => h (e ▸ List.mem_reverse.mp hx)
    simp [this]

/-! ## Registration and bootstrap failures (C1, C8, C9) -/

theorem bootstrap_fatal {σ : Type} (c : Client σ) (p : Pool) (zk : σ)
    (h : (bootstrap c p zk).fatal = true) :
    ∃ pre, (∀ x ∈ pre, x.failed = false) ∧
      ((∃ q e, (bootstrap c p zk).tr = pre ++ [Ev.Exists q (.error e)]) ∨
       (∃ q e, (bootstrap c p zk).tr
          = pre ++ [Ev.Exists q (.ok false), Ev.Create q [] 0 (WorldACL PermAll) (.error e)])) :=
  ensurePath_fatal c _ _ _ h

theorem bootstrap_isBoot {σ : Type} (c : Client σ) (p : Pool) (zk : σ) :
    ∀ ev ∈ (bootstrap c p zk).tr, ev.isBoot = true :=
  ensurePath_isBoot c _ _ _

theorem bootstrap_failed_fatal {σ : Type} (c : Client σ) (p : Pool) (zk : σ)
    (h : ∃ ev ∈ (bootstrap c p zk).tr, ev.failed = true) : (bootstrap c p zk).fatal = true :=
  ensurePath_failed_fatal c _ _ _ h

theorem exec_start_step {σ : Type} (c : Client σ) (cfg : PoolConfig) (zk : σ) :
    exec c (NewPool cfg zk) [.task .proceed] = some (runInit c (NewPool cfg zk)) := rfl

theorem runInit_fatal {σ : Type} (c : Client σ) (cfg : PoolConfig) (zk : σ)
    (h : (bootstrap c (newPool cfg) zk).fatal = true) :
    (runInit c (NewPool cfg zk)).core
      = (.fatal, (bootstrap c (newPool cfg) zk).zk, Chan.make,
          (bootstrap c (newPool cfg) zk).tr, [], []) := by
  have h2 : (bootstrap c (NewPool cfg zk).pool (NewPool cfg zk).zk).fatal = true := h
  unfold runInit
  simp only [h2, if_true]
  rfl

theorem runInit_regfail {σ : Type} (c : Client σ) (cfg : PoolConfig) (zk : σ) (e : Err)
    (hboot : (bootstrap c (newPool cfg) zk).fatal = false)
    (hreg : (c.Create (bootstrap c (newPool cfg) zk).zk (mypath (newPool cfg)) []
      FlagEphemeral (WorldACL PermAll)).1 = .error e) :
    (runInit c (NewPool cfg zk)).core
      = (.exited,
          (c.Create (bootstrap c (newPool cfg) zk).zk (mypath (newPool cfg)) []
            FlagEphemeral (WorldACL PermAll)).2,
          Chan.make.close,
          (bootstrap c (newPool cfg) zk).tr ++
            [Ev.Create (mypath (newPool cfg)) [] FlagEphemeral (WorldACL PermAll) (.error e)],
          [], []) := by
  rcases hc : c.Create (bootstrap c (newPool cfg) zk).zk (mypath (newPool cfg)) []
      FlagEphemeral (WorldACL PermAll) with ⟨r, zk1⟩
  have hreg2 : r = .error e := by rw [hc] at hreg; exact hreg
  subst hreg2
  have h2 : (bootstrap c (NewPool cfg zk).pool (NewPool cfg zk).zk).fatal = false := hboot
  have hc2 : c.Create (bootstrap c (NewPool cfg zk).pool (NewPool cfg zk).zk).zk
      (mypath (NewPool cfg zk).pool) [] FlagEphemeral (WorldACL PermAll) = (.error e, zk1) := hc
  unfold runInit
  simp only [h2, hc2, Bool.false_eq_true, if_false]
  rfl

theorem runInit_trace {σ : Type} (c : Client σ) (cfg : PoolConfig) (zk : σ)
    (hboot : (bootstrap c (newPool cfg) zk).fatal = false) :
    ∃ res, (runInit c (NewPool cfg zk)).trace = (bootstrap c (newPool cfg) zk).tr ++
      [Ev.Create (mypath (newPool cfg)) [] FlagEphemeral (WorldACL PermAll) res] := by
  rcases hc : c.Create (bootstrap c (newPool cfg) zk).zk (mypath (newPool cfg)) []
      FlagEphemeral (WorldACL PermAll) with ⟨r, zk1⟩
  refine ⟨r, ?_⟩
  have h2 : (bootstrap c (NewPool cfg zk).pool (NewPool cfg zk).zk).fatal = false := hboot
  have hc2 : c.Create (bootstrap c (NewPool cfg zk).pool (NewPool cfg zk).zk).zk
      (mypath (NewPool cfg zk).pool) [] FlagEphemeral (WorldACL PermAll) = (r, zk1) := hc
  unfold runInit
  simp only [h2, hc2, Bool.false_eq_true, if_false]
  cases r <;> rfl

/-- C1: when bootstrap succeeds and the ephemeral `Create` of the member node
`mypath = path.Join(p.path, p.id)` returns an error, the first step of `run` is
enabled and ends it; in every state reached by any schedule in which the
goroutine has run, `run` has returned, the failed `Create` is the last backend
call ever made (no second `Create`, no `ChildrenW`), no snapshot was sent, and
the output channel is closed, by exactly one `close`. -/
theorem C1_registration_failure {σ : Type} (c : Client σ) (cfg : PoolConfig) (zk : σ) (e : Err)
    (hboot : (bootstrap c (newPool cfg) zk).fatal = false)
    (hreg : (c.Create (bootstrap c (newPool cfg) zk).zk (mypath (newPool cfg)) []
      FlagEphemeral (WorldACL PermAll)).1 = .error e) :
    (∃ s1, exec c (NewPool cfg zk) [.task .proceed] = some s1 ∧ s1.pc = .exited) ∧
    ∀ (as : List Action) (s : Sys σ), exec c (NewPool cfg zk) as = some s → s.pc ≠ .start →
      s.pc = .exited ∧
      s.trace = (bootstrap c (newPool cfg) zk).tr ++
        [Ev.Create (mypath (newPool cfg)) [] FlagEphemeral (WorldACL PermAll) (.error e)] ∧
      s.sent = [] ∧ s.pool.out.closed = true ∧ s.pool.out.closes = 1 := by
  have hcore := runInit_regfail c cfg zk e hboot hreg
  have hpc : (runInit c (NewPool cfg zk)).pc = .exited := congrArg Prod.fst hcore
  refine ⟨⟨_, exec_start_step c cfg zk, hpc⟩, ?_⟩
  intro as s hex hns
  rcases exec_from_start as rfl hex with h | h | h
  · exact absurd (congrArg Prod.fst h) hns
  · rw [hpc] at h; cases h
  · rw [hcore] at h
    simp only [Sys.core, Prod.mk.injEq] at h
    obtain ⟨h1, _, h3, h4, h5, _⟩ := h
    refine ⟨h1, h4, h5, ?_, ?_⟩ <;> rw [h3] <;> rfl

/-- The hypotheses of C1 hold for the in-memory backend with a stale member
node, and there `run` returns at once. -/
theorem C1_registration_failure_witness :
    (bootstrap memClient (newPool cfg7) staleNodes).fatal = false ∧
    (memClient.Create (bootstrap memClient (newPool cfg7) staleNodes).zk (mypath (newPool cfg7)) []
      FlagEphemeral (WorldACL PermAll)).1 = .error .ErrNodeExists ∧
    ∃ s1, exec memClient (NewPool cfg7 staleNodes) [.task .proceed] = some s1 ∧ s1.pc = .exited :=
  ⟨by decide, by decide,
    (C1_registration_failure memClient cfg7 staleNodes .ErrNodeExists (by decide) (by decide)).1⟩

/-- C9: when some call of the bootstrap loop (an `Exists`, or the persistent
`Create` of a node reported absent) returns an error, that call is the last one
of the loop and every earlier one succeeded; the first step of `run` ends in
`log.Fatal`; and in every state reached by any schedule in which the goroutine
has run, the process has been ended by `log.Fatal`, the trace is the one of the
loop up to the failed call (only `Exists` and persistent `Create` calls: no
member-node `Create`, no `ChildrenW`), and no snapshot was sent. -/
theorem C9_bootstrap_error_fatal {σ : Type} (c : Client σ) (cfg : PoolConfig) (zk : σ)
    (herr : ∃ ev ∈ (bootstrap c (newPool cfg) zk).tr, ev.failed = true) :
    (∃ pre ev, (bootstrap c (newPool cfg) zk).tr = pre ++ [ev] ∧ ev.failed = true ∧
      ∀ x ∈ pre, x.failed = false) ∧
    (∃ s1, exec c (NewPool cfg zk) [.task .proceed] = some s1 ∧ s1.pc = .fatal) ∧
    ∀ (as : List Action) (s : Sys σ), exec c (NewPool cfg zk) as = some s → s.pc ≠ .start →
      s.pc = .fatal ∧ s.trace = (bootstrap c (newPool cfg) zk).tr ∧
      (∀ x ∈ s.trace, x.isBoot = true) ∧ s.sent = [] := by
  have hf : (bootstrap c (newPool cfg) zk).fatal = true := bootstrap_failed_fatal c _ _ herr
  have hcore := runInit_fatal c cfg zk hf
  have hpc : (runInit c (NewPool cfg zk)).pc = .fatal := congrArg Prod.fst hcore
  refine ⟨?_, ⟨_, exec_start_step c cfg zk, hpc⟩, ?_⟩
  · obtain ⟨pre, h1, h2⟩ := bootstrap_fatal c _ _ hf
    rcases h2 with ⟨p, e, h2⟩ | ⟨p, e, h2⟩
    · exact ⟨pre, _, h2, rfl, h1⟩
    · refine ⟨pre ++ [Ev.Exists p (.ok false)],
        Ev.Create p [] 0 (WorldACL PermAll) (.error e), by simpa using h2, rfl, ?_⟩
      intro x hx
      simp only [List.mem_append, List.mem_singleton] at hx
      rcases hx with hx | hx
      · exact h1 x hx
      · subst hx; rfl
  · intro as s hex hns
    rcases exec_from_start as rfl hex with h | h | h
    · exact absurd (congrArg Prod.fst h) hns
    · rw [hpc] at h; cases h
    · rw [hcore] at h
      simp only [Sys.core, Prod.mk.injEq] at h
      obtain ⟨h1, _, _, h4, h5, _⟩ := h
      refine ⟨h1, h4, ?_, h5⟩
      rw [h4]
      exact bootstrap_isBoot c _ _

/-- The hypothesis of C9 holds for a backend that is down: the first `Exists`
fails and the first step of `run` ends in `log.Fatal`. -/
theorem C9_bootstrap_error_fatal_witness :
    (∃ ev ∈ (bootstrap downClient (newPool cfg7) ()).tr, ev.failed = true) ∧
    ∃ s1, exec downClient (NewPool cfg7 ()) [.task .proceed] = some s1 ∧ s1.pc = .fatal :=
  ⟨by decide, (C9_bootstrap_error_fatal downClient cfg7 () (by decide)).2.1⟩

/-- C8, refuted: on a backend where another process creates `/pools` between the
`Exists` and the `Create`, `Exists` reports the node absent, `Create` fails with
`zk.ErrNodeExists`, and `run` ends in `log.Fatal`: it visits no further node
and never creates the member node. -/
theorem C8_counterexample :
    (runInit raceClient (NewPool cfg7 [])).pc = .fatal ∧
    (runInit raceClient (NewPool cfg7 [])).trace =
      [Ev.Exists "/pools".toList (.ok false),
       Ev.Create "/pools".toList [] 0 (WorldACL PermAll) (.error .ErrNodeExists)] := by
  decide

/-- C8, amended: when the persistent `Create` of a node in the bootstrap loop
fails with any error `e` (`zk.ErrNodeExists` included), it directly follows the
`Exists` that reported the node absent and is the last call of the loop; in
every state reached by any schedule in which the goroutine has run, the process
has been ended by `log.Fatal`, the failed `Create` is the last call of the trace,
and the trace has no `Create` with the ephemeral flag (the member node is never
registered). -/
theorem C8_create_error_fatal {σ : Type} (c : Client σ) (cfg : PoolConfig) (zk : σ)
    (p : Str) (e : Err)
    (h : Ev.Create p [] 0 (WorldACL PermAll) (.error e) ∈ (bootstrap c (newPool cfg) zk).tr) :
    ∃ pre, (bootstrap c (newPool cfg) zk).tr
        = pre ++ [Ev.Exists p (.ok false), Ev.Create p [] 0 (WorldACL PermAll) (.error e)] ∧
      ∀ (as : List Action) (s : Sys σ), exec c (NewPool cfg zk) as = some s → s.pc ≠ .start →
        s.pc = .fatal ∧
        s.trace = pre ++ [Ev.Exists p (.ok false), Ev.Create p [] 0 (WorldACL PermAll) (.error e)] ∧
        ∀ q d a r, Ev.Create q d FlagEphemeral a r ∉ s.trace := by
  have hf : (bootstrap c (newPool cfg) zk).fatal = true :=
    bootstrap_failed_fatal c _ _ ⟨_, h, rfl⟩
  have hcore := runInit_fatal c cfg zk hf
  have hpc : (runInit c (NewPool cfg zk)).pc = .fatal := congrArg Prod.fst hcore
  obtain ⟨pre, h1, h2⟩ := bootstrap_fatal c _ _ hf
  have hshape : (bootstrap c (newPool cfg) zk).tr
      = pre ++ [Ev.Exists p (.ok false), Ev.Create p [] 0 (WorldACL PermAll) (.error e)] := by
    rcases h2 with ⟨p2, e2, h2⟩ | ⟨p2, e2, h2⟩
    · have h3 := h
      rw [h2] at h3
      simp only [List.mem_append, List.mem_singleton] at h3
      rcases h3 with h3 | h3
      · have := h1 _ h3
        simp [Ev.failed, Res.failed] at this
      · cases h3
    · have h3 := h
      rw [h2] at h3 ⊢
      simp only [List.mem_append, List.mem_cons, List.mem_singleton, List.not_mem_nil,
        or_false] at h3
      rcases h3 with h3 | h3 | h3
      · have := h1 _ h3
        simp [Ev.failed, Res.failed] at this
      · cases h3
      · cases h3; rfl
  refine ⟨pre, hshape, ?_⟩
  intro as s hex hns
  rcases exec_from_start as rfl hex with h3 | h3 | h3
  · exact absurd (congrArg Prod.fst h3) hns
  · rw [hpc] at h3; cases h3
  · rw [hcore] at h3
    simp only [Sys.core, Prod.mk.injEq] at h3
    obtain ⟨h4, _, _, h5, _, _⟩ := h3
    refine ⟨h4, h5.trans hshape, ?_⟩
    intro q d a r hmem
    rw [h5] at hmem
    have := bootstrap_isBoot c _ _ _ hmem
    simp [Ev.isBoot, FlagEphemeral] at this

/-- The hypothesis of the amended C8 holds on the racing backend, with the
error `zk.ErrNodeExists`. -/
theorem C8_create_error_fatal_witness :
    Ev.Create "/pools".toList [] 0 (WorldACL PermAll) (.error .ErrNodeExists)
        ∈ (bootstrap raceClient (newPool cfg7) []).tr ∧
    ∃ pre, (bootstrap raceClient (newPool cfg7) []).tr
        = pre ++ [Ev.Exists "/pools".toList (.ok false),
            Ev.Create "/pools".toList [] 0 (WorldACL PermAll) (.error .ErrNodeExists)] :=
  ⟨by decide,
    (C8_create_error_fatal raceClient cfg7 [] "/pools".toList .ErrNodeExists (by decide)).imp
      (fun _ hp => hp.1)⟩

/-! ## The nodes visited by the bootstrap loop (C2, C10) -/

/-- The trace of the bootstrap loop for any backend: successful visits of the
first `k` values of `acc`, then either nothing (all values visited, no
`log.Fatal`) or the failed call at value `k` (and `log.Fatal`). -/
theorem ensurePath_shape {σ : Type} (c : Client σ) (A : List Str) (acc : Str) (zk : σ) :
    ∃ (k : Nat) (rs : List (Bool × Str)), rs.length = k ∧
      (((ensurePath c A acc zk).fatal = false ∧ k = A.length ∧
          (ensurePath c A acc zk).tr = visits (stems A acc) rs) ∨
       ((ensurePath c A acc zk).fatal = true ∧ ∃ p e, (stems A acc)[k]? = some p ∧
          ((ensurePath c A acc zk).tr = visits ((stems A acc).take k) rs ++ [Ev.Exists p (.error e)] ∨
           (ensurePath c A acc zk).tr = visits ((stems A acc).take k) rs ++
              [Ev.Exists p (.ok false), Ev.Create p [] 0 (WorldACL PermAll) (.error e)]))) := by
  induction A generalizing acc zk with
  | nil => exact ⟨0, [], rfl, Or.inl ⟨rfl, rfl, rfl⟩⟩
  | cons a t ih =>
    unfold ensurePath
    simp only
    split
    · rename_i e zk1 heq
      exact ⟨0, [], rfl, Or.inr ⟨rfl, acc ++ '/' :: a, e, by simp [stems],
        Or.inl (by simp [visits])⟩⟩
    · rename_i zk1 heq
      obtain ⟨k, rs, hk, h⟩ := ih (acc ++ '/' :: a) zk1
      refine ⟨k + 1, (true, []) :: rs, by simp [hk], ?_⟩
      rcases h with ⟨h1, h2, h3⟩ | ⟨h1, p, e, h2, h3⟩
      · exact Or.inl ⟨h1, by simp [h2], by simp [stems, visits, visit, h3]⟩
      · refine Or.inr ⟨h1, p, e, by simpa [stems] using h2, ?_⟩
        rcases h3 with h3 | h3
        · exact Or.inl (by simp [stems, visits, visit, h3])
        · exact Or.inr (by simp [stems, visits, visit, h3])
    · rename_i zk1 heq
      split
      · rename_i e zk2 heq2
        exact ⟨0, [], rfl, Or.inr ⟨rfl, acc ++ '/' :: a, e, by simp [stems],
          Or.inr (by simp [visits])⟩⟩
      · rename_i created zk2 heq2
        obtain ⟨k, rs, hk, h⟩ := ih (acc ++ '/' :: a) zk2
        refine ⟨k + 1, (false, created) :: rs, by simp [hk], ?_⟩
        rcases h with ⟨h1, h2, h3⟩ | ⟨h1, p, e, h2, h3⟩
        · exact Or.inl ⟨h1, by simp [h2], by simp [stems, visits, visit, h3]⟩
        · refine Or.inr ⟨h1, p, e, by simpa [stems] using h2, ?_⟩
          rcases h3 with h3 | h3
          · exact Or.inl (by simp [stems, visits, visit, h3])
          · exact Or.inr (by simp [stems, visits, visit, h3])

/-- For an absolute root and a node name as id: the member path is the pool
path followed by the id, the loop runs over the elements of the pool path, and
the values of `acc` are the ancestors of the member path. -/
theorem absolute_paths (cfg : PoolConfig) (hroot : cfg.Root.head? = some '/') (hid : Seg cfg.ID) :
    (newPool cfg).path = '/' :: joinSlash (poolElems cfg.Root) ∧
    mypath (newPool cfg) = (newPool cfg).path ++ '/' :: cfg.ID ∧
    mypath (newPool cfg) = Join [cfg.Root, "scraper".toList, "scrapers".toList, cfg.ID] ∧
    ((Split (mypath (newPool cfg))).drop 1).dropLast = poolElems cfg.Root ∧
    ancestors (mypath (newPool cfg)) = stems (poolElems cfg.Root) [] := by
  obtain ⟨id, root⟩ := cfg
  cases root with
  | nil => simp at hroot
  | cons ch r =>
    simp only [List.head?_cons, Option.some.injEq] at hroot
    subst hroot
    simp only at hid
    have hp : (newPool { ID := id, Root := '/' :: r }).path
        = '/' :: joinSlash (poolElems ('/' :: r)) := poolPath_eq r
    have hm := mypath_eq r hid (newPool { ID := id, Root := '/' :: r }) rfl rfl
    have hseg := poolElems_seg ('/' :: r)
    refine ⟨hp, ?_, ?_, ?_, ?_⟩
    · rw [hm, hp, joinSlash_snoc (poolElems_ne_nil _)]
      simp
    · rw [hm]; exact (join4_eq r hid).symm
    · rw [hm]; exact visited_parts _ _ hseg hid
    · rw [hm]
      unfold ancestors
      rw [ancestorsAux_stems _ _ _ (fun e he => (hseg e he).2.1) hid.2.1]
      simp

theorem join2_eq (r : Str) :
    Join ['/' :: r, "scraper".toList] = '/' :: joinSlash (rootElems ('/' :: r) ++ ["scraper".toList]) := by
  have hL : ∀ e ∈ ["scraper".toList], Seg e := by
    intro e he
    simp only [List.mem_singleton] at he
    subst he
    exact seg_scraper
  have := Clean_rooted_append r (by simp) hL
  simpa [Join, joinSlash] using this

/-- The values of `acc` end with `root/scraper` and `root/scraper/scrapers`. -/
theorem stems_pool (r : Str) :
    stems (poolElems ('/' :: r)) []
      = ancestors (Join ['/' :: r, "scraper".toList]) ++
          [Join ['/' :: r, "scraper".toList],
           Join ['/' :: r, "scraper".toList, "scrapers".toList]] := by
  have hs : ∀ e ∈ rootElems ('/' :: r), '/' ∉ e := fun e he => (rootElems_seg _ e he).2.1
  have h1 : poolElems ('/' :: r)
      = (rootElems ('/' :: r) ++ ["scraper".toList]) ++ ["scrapers".toList] := by
    simp [poolElems]
  have h2 : ancestors (Join ['/' :: r, "scraper".toList]) = stems (rootElems ('/' :: r)) [] := by
    rw [join2_eq]
    unfold ancestors
    rw [ancestorsAux_stems _ _ _ hs seg_scraper.2.1]
    simp
  rw [h2, poolPath_eq, join2_eq, h1, stems_snoc, stems_snoc]
  simp

theorem bootstrap_absolute {σ : Type} (c : Client σ) (zk : σ) (cfg : PoolConfig)
    (hroot : cfg.Root.head? = some '/') (hid : Seg cfg.ID) :
    bootstrap c (newPool cfg) zk = ensurePath c (poolElems cfg.Root) [] zk := by
  unfold bootstrap
  rw [(absolute_paths cfg hroot hid).2.2.2.1]

theorem runInit_trace_fatal {σ : Type} (c : Client σ) (cfg : PoolConfig) (zk : σ)
    (h : (bootstrap c (newPool cfg) zk).fatal = true) :
    (runInit c (NewPool cfg zk)).trace = (bootstrap c (newPool cfg) zk).tr := by
  have := runInit_fatal c cfg zk h
  simp only [Sys.core, Prod.mk.injEq] at this
  exact this.2.2.2.1

/-- C2, refuted: root `/pools` is absolute and the ids `..` and `.` are single
path elements (non-empty, no slash), yet on the empty in-memory backend the
claimed trace does not come out.  For id `..` the member path is
`/pools/scraper`: the loop visits `/pools` only and the `Create` with the
ephemeral flag is at `/pools/scraper`, not at `/pools/scraper/scrapers/..`.
For id `.` the member path is the pool path `/pools/scraper/scrapers` itself:
the loop visits `/pools` and `/pools/scraper`, never the pool path, and the
`Create` with the ephemeral flag is at the pool path. -/
theorem C2_counterexample :
    (("/pools".toList.head? = some '/' ∧ "..".toList ≠ [] ∧ '/' ∉ "..".toList) ∧
      (runInit memClient (NewPool { ID := "..".toList, Root := "/pools".toList } [])).trace =
        [Ev.Exists "/pools".toList (.ok false),
         Ev.Create "/pools".toList [] 0 (WorldACL PermAll) (.ok "/pools".toList),
         Ev.Create "/pools/scraper".toList [] FlagEphemeral (WorldACL PermAll)
           (.ok "/pools/scraper".toList)]) ∧
    (("/pools".toList.head? = some '/' ∧ ".".toList ≠ [] ∧ '/' ∉ ".".toList) ∧
      (runInit memClient (NewPool { ID := ".".toList, Root := "/pools".toList } [])).trace =
        [Ev.Exists "/pools".toList (.ok false),
         Ev.Create "/pools".toList [] 0 (WorldACL PermAll) (.ok "/pools".toList),
         Ev.Exists "/pools/scraper".toList (.ok false),
         Ev.Create "/pools/scraper".toList [] 0 (WorldACL PermAll) (.ok "/pools/scraper".toList),
         Ev.Create "/pools/scraper/scrapers".toList [] FlagEphemeral (WorldACL PermAll)
           (.ok "/pools/scraper/scrapers".toList)]) := by
  decide

/-- C2, amended: for an absolute root and an id that is one node name (a single
path element, non-empty and without slash, other than `.` and `..`), the
bootstrap loop of `run` visits the ancestors of the member path `p.path/id`
root first,
the last two being `root/scraper` and `root/scraper/scrapers`.  For every
backend the trace of the first step of `run` consists of successful visits
(one `Exists`, then one persistent `Create` with empty data exactly when
`Exists` reported the node absent) of the first `k` ancestors in order,
followed either, when all ancestors were visited, by the one `Create` of the
member path with the ephemeral flag, or by the failed call at ancestor `k`.
A `Create` with the ephemeral flag occurs only as the last call and only at
the member path.  For root `/pools`, id `worker-7` and the empty in-memory
backend the trace is the one of the example scenario. -/
theorem C2_bootstrap_trace {σ : Type} (c : Client σ) (zk : σ) (cfg : PoolConfig)
    (hroot : cfg.Root.head? = some '/') (hid : Seg cfg.ID) :
    mypath (newPool cfg) = (newPool cfg).path ++ '/' :: cfg.ID ∧
    ancestors (mypath (newPool cfg))
      = ancestors (Join [cfg.Root, "scraper".toList]) ++
          [Join [cfg.Root, "scraper".toList], (newPool cfg).path] ∧
    (∃ (k : Nat) (rs : List (Bool × Str)), rs.length = k ∧
      ((k = (ancestors (mypath (newPool cfg))).length ∧ ∃ res,
          (runInit c (NewPool cfg zk)).trace
            = visits (ancestors (mypath (newPool cfg))) rs ++
                [Ev.Create (mypath (newPool cfg)) [] FlagEphemeral (WorldACL PermAll) res]) ∨
       (∃ p e, (ancestors (mypath (newPool cfg)))[k]? = some p ∧
          ((runInit c (NewPool cfg zk)).trace
              = visits ((ancestors (mypath (newPool cfg))).take k) rs ++
                  [Ev.Exists p (.error e)] ∨
           (runInit c (NewPool cfg zk)).trace
              = visits ((ancestors (mypath (newPool cfg))).take k) rs ++
                  [Ev.Exists p (.ok false),
                   Ev.Create p [] 0 (WorldACL PermAll) (.error e)])))) ∧
    (∀ ev ∈ (runInit c (NewPool cfg zk)).trace, ∀ q d a r,
        ev = Ev.Create q d FlagEphemeral a r →
          q = mypath (newPool cfg) ∧ (runInit c (NewPool cfg zk)).trace.getLast? = some ev) ∧
    (runInit memClient (NewPool cfg7 [])).trace =
      [Ev.Exists "/pools".toList (.ok false),
       Ev.Create "/pools".toList [] 0 (WorldACL PermAll) (.ok "/pools".toList),
       Ev.Exists "/pools/scraper".toList (.ok false),
       Ev.Create "/pools/scraper".toList [] 0 (WorldACL PermAll) (.ok "/pools/scraper".toList),
       Ev.Exists "/pools/scraper/scrapers".toList (.ok false),
       Ev.Create "/pools/scraper/scrapers".toList [] 0 (WorldACL PermAll)
         (.ok "/pools/scraper/scrapers".toList),
       Ev.Create "/pools/scraper/scrapers/worker-7".toList [] FlagEphemeral (WorldACL PermAll)
         (.ok "/pools/scraper/scrapers/worker-7".toList)] := by
  obtain ⟨hp, hm, _, _, hanc⟩ := absolute_paths cfg hroot hid
  have hb := bootstrap_absolute c zk cfg hroot hid
  refine ⟨hm, ?_, ?_, ?_, by decide⟩
  · rw [hanc]
    obtain ⟨id, root⟩ := cfg
    cases root with
    | nil => simp at hroot
    | cons ch r =>
      simp only [List.head?_cons, Option.some.injEq] at hroot
      subst hroot
      exact stems_pool r
  · rw [hanc]
    obtain ⟨k, rs, hk, h⟩ := ensurePath_shape c (poolElems cfg.Root) [] zk
    rw [← hb] at h
    refine ⟨k, rs, hk, ?_⟩
    rcases h with ⟨h1, h2, h3⟩ | ⟨h1, p, e, h2, h3⟩
    · left
      obtain ⟨res, hres⟩ := runInit_trace c cfg zk h1
      exact ⟨by rw [h2, stems_length], res, by rw [hres, h3]⟩
    · right
      rw [runInit_trace_fatal c cfg zk h1]
      exact ⟨p, e, h2, h3⟩
  · intro ev hev q d a r hq
    cases hf : (bootstrap c (newPool cfg) zk).fatal
    · obtain ⟨res, hres⟩ := runInit_trace c cfg zk hf
      rw [hres] at hev ⊢
      simp only [List.mem_append, List.mem_singleton] at hev
      rcases hev with hev | hev
      · have := bootstrap_isBoot c _ _ _ hev
        rw [hq] at this
        simp [Ev.isBoot, FlagEphemeral] at this
      · rw [hq] at hev
        cases hev
        exact ⟨rfl, by rw [hq]; simp⟩
    · rw [runInit_trace_fatal c cfg zk hf] at hev
      have := bootstrap_isBoot c _ _ _ hev
      rw [hq] at this
      simp [Ev.isBoot, FlagEphemeral] at this

/-- The hypotheses of the amended C2 hold for root `/pools` and id `worker-7`;
on the empty in-memory backend all three ancestors are visited and created. -/
theorem C2_bootstrap_trace_witness :
    cfg7.Root.head? = some '/' ∧ Seg cfg7.ID ∧
    mypath (newPool cfg7) = (newPool cfg7).path ++ '/' :: cfg7.ID ∧
    ancestors (mypath (newPool cfg7))
      = ancestors (Join [cfg7.Root, "scraper".toList]) ++
          [Join [cfg7.Root, "scraper".toList], (newPool cfg7).path] :=
  ⟨by decide, by decide,
    (C2_bootstrap_trace memClient [] cfg7 (by decide) (by decide)).1,
    (C2_bootstrap_trace memClient [] cfg7 (by decide) (by decide)).2.1⟩

/-- In a trace of successful visits the nodes created are the nodes reported
absent, in order. -/
theorem createPaths_eq_absentPaths (ps : List Str) (rs : List (Bool × Str)) :
    createPaths (visits ps rs) = absentPaths (visits ps rs) := by
  induction ps generalizing rs with
  | nil => cases rs <;> rfl
  | cons p t ih =>
    cases rs with
    | nil => rfl
    | cons r rs2 =>
      cases hr : r.1
      · simp only [visits, visit, hr, Bool.false_eq_true, if_false, List.cons_append,
          List.nil_append, createPaths, absentPaths]
        rw [ih rs2]
      · simp only [visits, visit, hr, if_true, List.cons_append, List.nil_append,
          createPaths, absentPaths]
        exact ih rs2

/-- C10, refuted: (1) for the relative root `pools` the nodes checked are
`/scraper` and `/scraper/scrapers`, which are not the ancestors of the member
path `pools/scraper/scrapers/w`, and the pool path is not among them; (2) for
the empty id the member path is the pool path itself, which is then neither
checked nor the parent of the member node; (3) for the id `a/b` the member
node is not a direct child of the pool path; (4) for the id `..` the member
path is `/pools/scraper` and the pool path is not checked.  In all four runs
the bootstrap succeeds. -/
theorem C10_counterexample :
    ((bootstrap memClient (newPool { ID := "w".toList, Root := "pools".toList }) []).fatal = false ∧
      existsPaths (bootstrap memClient (newPool { ID := "w".toList, Root := "pools".toList }) []).tr
        = ["/scraper".toList, "/scraper/scrapers".toList] ∧
      ancestors (Join ["pools".toList, "scraper".toList, "scrapers".toList, "w".toList])
        = ["pools".toList, "pools/scraper".toList, "pools/scraper/scrapers".toList] ∧
      (newPool { ID := "w".toList, Root := "pools".toList }).path
        ∉ existsPaths (bootstrap memClient (newPool { ID := "w".toList, Root := "pools".toList }) []).tr) ∧
    ((bootstrap memClient (newPool { ID := [], Root := "/pools".toList }) []).fatal = false ∧
      (newPool { ID := [], Root := "/pools".toList }).path
        ∉ existsPaths (bootstrap memClient (newPool { ID := [], Root := "/pools".toList }) []).tr ∧
      mypath (newPool { ID := [], Root := "/pools".toList })
        = (newPool { ID := [], Root := "/pools".toList }).path) ∧
    ((bootstrap memClient (newPool { ID := "a/b".toList, Root := "/pools".toList }) []).fatal = false ∧
      parentOf (mypath (newPool { ID := "a/b".toList, Root := "/pools".toList }))
        ≠ (newPool { ID := "a/b".toList, Root := "/pools".toList }).path) ∧
    ((bootstrap memClient (newPool { ID := "..".toList, Root := "/pools".toList }) []).fatal = false ∧
      mypath (newPool { ID := "..".toList, Root := "/pools".toList }) = "/pools/scraper".toList ∧
      (newPool { ID := "..".toList, Root := "/pools".toList }).path
        ∉ existsPaths (bootstrap memClient (newPool { ID := "..".toList, Root := "/pools".toList }) []).tr) := by
  decide

/-- C10, amended: for every root that starts with a slash and every id that is
one node name (non-empty, no slash, not `.` or `..`), when bootstrap succeeds
the nodes that `run` checks with `Exists` are exactly the non-empty proper
ancestor paths of the member path `Join(root, "scraper", "scrapers", id)`, root
first; the trace of the loop is one successful visit per ancestor, that is one
`Exists` directly followed by one successful persistent `Create` of the same
node exactly when the `Exists` answered absent, so the nodes created are
exactly the ancestors reported absent, in order; the pool path
`Join(root, "scraper", "scrapers")` is among the nodes checked; and the member
node is created, with the ephemeral flag, at a direct child of the pool path. -/
theorem C10_checked_paths {σ : Type} (c : Client σ) (zk : σ) (cfg : PoolConfig)
    (hroot : cfg.Root.head? = some '/') (hid : Seg cfg.ID)
    (hok : (bootstrap c (newPool cfg) zk).fatal = false) :
    existsPaths (bootstrap c (newPool cfg) zk).tr
      = ancestors (Join [cfg.Root, "scraper".toList, "scrapers".toList, cfg.ID]) ∧
    (∀ q, q ∈ existsPaths (bootstrap c (newPool cfg) zk).tr ↔
      q ≠ [] ∧ ∃ r, Join [cfg.Root, "scraper".toList, "scrapers".toList, cfg.ID] = q ++ '/' :: r) ∧
    (∀ q ∈ createPaths (bootstrap c (newPool cfg) zk).tr,
      q ∈ existsPaths (bootstrap c (newPool cfg) zk).tr) ∧
    (∃ rs : List (Bool × Str),
      rs.length = (ancestors (Join [cfg.Root, "scraper".toList, "scrapers".toList, cfg.ID])).length ∧
      (bootstrap c (newPool cfg) zk).tr
        = visits (ancestors (Join [cfg.Root, "scraper".toList, "scrapers".toList, cfg.ID])) rs) ∧
    createPaths (bootstrap c (newPool cfg) zk).tr
      = absentPaths (bootstrap c (newPool cfg) zk).tr ∧
    Join [cfg.Root, "scraper".toList, "scrapers".toList]
      ∈ existsPaths (bootstrap c (newPool cfg) zk).tr ∧
    (∃ res, (runInit c (NewPool cfg zk)).trace = (bootstrap c (newPool cfg) zk).tr ++
      [Ev.Create (Join [cfg.Root, "scraper".toList, "scrapers".toList, cfg.ID]) []
        FlagEphemeral (WorldACL PermAll) res]) ∧
    parentOf (Join [cfg.Root, "scraper".toList, "scrapers".toList, cfg.ID])
      = Join [cfg.Root, "scraper".toList, "scrapers".toList] := by
  obtain ⟨hp, hm, hj, _, hanc⟩ := absolute_paths cfg hroot hid
  have hb := bootstrap_absolute c zk cfg hroot hid
  have hok2 := hok
  rw [hb] at hok2
  obtain ⟨rs, hlen, htr⟩ := ensurePath_ok c _ _ zk hok2
  rw [← hb] at htr
  have hex : existsPaths (bootstrap c (newPool cfg) zk).tr = ancestors (mypath (newPool cfg)) := by
    rw [htr, hanc, existsPaths_visits _ _ (by rw [hlen, stems_length])]
  have hpool : (newPool cfg).path = Join [cfg.Root, "scraper".toList, "scrapers".toList] := rfl
  rw [← hj, ← hpool]
  refine ⟨hex, ?_, ?_, ?_, ?_, ?_, runInit_trace c cfg zk hok, ?_⟩
  · intro q
    rw [hex]
    exact mem_ancestors _ q
  · intro q hq
    rw [htr] at hq
    rw [hex, hanc]
    exact createPaths_visits _ _ q hq
  · exact ⟨rs, by rw [hlen, hanc, stems_length], by rw [htr, hanc]⟩
  · rw [htr]
    exact createPaths_eq_absentPaths _ _
  · rw [hex, mem_ancestors, hm]
    refine ⟨?_, cfg.ID, rfl⟩
    rw [hp]; simp
  · rw [hm]
    exact parentOf_child _ hid.2.1

/-- The hypotheses of the amended C10 hold for root `/pools`, id `worker-7` and
the empty in-memory backend; the nodes checked are the three ancestors. -/
theorem C10_checked_paths_witness :
    cfg7.Root.head? = some '/' ∧ Seg cfg7.ID ∧
    (bootstrap memClient (newPool cfg7) []).fatal = false ∧
    existsPaths (bootstrap memClient (newPool cfg7) []).tr
      = ancestors (Join [cfg7.Root, "scraper".toList, "scrapers".toList, cfg7.ID]) ∧
    createPaths (bootstrap memClient (newPool cfg7) []).tr
      = absentPaths (bootstrap memClient (newPool cfg7) []).tr ∧
    createPaths (bootstrap memClient (newPool cfg7) []).tr
      = ["/pools".toList, "/pools/scraper".toList, "/pools/scraper/scrapers".toList] :=
  ⟨by decide, by decide, by decide,
    (C10_checked_paths memClient [] cfg7 (by decide) (by decide) (by decide)).1,
    (C10_checked_paths memClient [] cfg7 (by decide) (by decide) (by decide)).2.2.2.2.1,
    by decide⟩

/-! ## The watch loop without cancellation (C3, C4) -/

theorem fetched_append (a b : List Ev) : fetched (a ++ b) = fetched a ++ fetched b := by
  induction a with
  | nil => rfl
  | cons e t ih =>
    cases e with
    | Exists p r => simpa [fetched] using ih
    | Create p d f acl r => simpa [fetched] using ih
    | ChildrenW p r => cases r <;> simpa [fetched] using ih

theorem exec_append {σ : Type} (c : Client σ) (s : Sys σ) (as bs : List Action) :
    exec c s (as ++ bs) = (exec c s as).bind (fun s1 => exec c s1 bs) := by
  induction as generalizing s with
  | nil => rfl
  | cons a t ih =>
    simp only [List.cons_append, exec]
    cases act c s a with
    | none => rfl
    | some s1 => exact ih s1

/-- Runs with a counter: an invariant indexed by the number of watch events. -/
theorem exec_counting {σ : Type} {c : Client σ} (P : Sys σ → Nat → Prop)
    (hstep : ∀ s a s1 n, a ≠ .stop → P s n → act c s a = some s1 →
      P s1 (n + (if a = .fire then 1 else 0))) :
    ∀ (as : List Action) (s s1 : Sys σ) (n : Nat), (∀ a ∈ as, a ≠ .stop) → P s n →
      exec c s as = some s1 → P s1 (n + as.count .fire) := by
  intro as
  induction as with
  | nil =>
    intro s s1 n _ hP h
    simp only [exec, Option.some.injEq] at h
    subst h
    simpa using hP
  | cons a t ih =>
    intro s s1 n hns hP h
    simp only [exec] at h
    split at h
    · cases h
    · rename_i s2 heq
      have h1 := hstep s a s2 n (hns a (by simp)) hP heq
      have h2 := ih s2 s1 _ (fun b hb => hns b (List.mem_cons_of_mem _ hb)) h1 h
      by_cases hf : a = .fire
      · subst hf
        simp only [if_true] at h2
        simp only [List.count_cons_self]
        rw [show n + (List.count Action.fire t + 1) = n + 1 + List.count Action.fire t by omega]
        exact h2
      · simp only [hf, if_false, Nat.add_zero] at h2
        rw [List.count_cons_of_ne (Ne.symm hf)]
        exact h2

theorem ok_of_not_failed {α : Type} {r : Res α} (h : r.failed = false) : ∃ v, r = .ok v := by
  cases r with
  | ok v => exact ⟨v, rfl⟩
  | error e => simp [Res.failed] at h

/-- The invariant of the watch loop is kept by every action but `Stop`. -/
theorem WatchInv_step {σ : Type} (c : Client σ) (s0 : Sys σ)
    (hdone : s0.pool.done.closed = false)
    (hok : ∀ j, (c.ChildrenW (zkAfter c s0.pool.path s0.zk j) s0.pool.path).1.failed = false)
    (s : Sys σ) (a : Action) (s1 : Sys σ) (n : Nat) (ha : a ≠ .stop)
    (hinv : WatchInv c s0 s n) (hact : act c s a = some s1) :
    WatchInv c s0 s1 (n + (if a = .fire then 1 else 0)) := by
  obtain ⟨pool, pc, zk, rr, ev, tr, sent, sl⟩ := s
  obtain ⟨hpool, hsl, m, hzk, htr, hpc⟩ := hinv
  simp only at hpool hsl hzk htr hpc
  subst hpool hsl
  cases a with
  | stop => exact absurd rfl ha
  | recvOn =>
    simp only [act, Option.some.injEq] at hact
    subst hact
    refine ⟨rfl, rfl, m, hzk, htr, ?_⟩
    cases pc <;> first | exact False.elim hpc | simpa [pend] using hpc
  | recvOff =>
    simp only [act, Option.some.injEq] at hact
    subst hact
    refine ⟨rfl, rfl, m, hzk, htr, ?_⟩
    cases pc <;> first | exact False.elim hpc | simpa [pend] using hpc
  | wake =>
    cases pc <;> simp [act] at hact
    simp at hpc
  | fire =>
    cases pc <;> simp [act, PC.watching] at hact
    · obtain ⟨hev, rfl⟩ := hact
      subst hev
      obtain ⟨k, h1, h2, h3, h4⟩ := hpc
      refine ⟨rfl, rfl, m, hzk, htr, k, h1, ?_, h3, h4⟩
      simp only [pend] at h2 ⊢
      simp at h2 ⊢
      omega
    · obtain ⟨hev, rfl⟩ := hact
      subst hev
      obtain ⟨k, h1, h2, h4⟩ := hpc
      refine ⟨rfl, rfl, m, hzk, htr, k, h1, ?_, h4⟩
      simp only [pend] at h2 ⊢
      simp at h2 ⊢
      omega
  | task ch =>
    cases ch with
    | cancel =>
      cases pc <;> simp [act, runStep, hdone] at hact
    | proceed =>
      cases pc with
      | start => simp at hpc
      | sleeping => simp at hpc
      | exited => simp at hpc
      | fatal => simp at hpc
      | loopTop =>
        simp only [act, runStep, hdone, Bool.false_eq_true, if_false, Option.some.injEq] at hact
        subst hact
        exact ⟨rfl, rfl, m, hzk, htr, by simpa using hpc⟩
      | fetch =>
        simp only at hpc
        obtain ⟨hm, hsent⟩ := hpc
        obtain ⟨kids, hkids⟩ := ok_of_not_failed (hok m)
        rcases hc2 : c.ChildrenW (zkAfter c s0.pool.path s0.zk m) s0.pool.path with ⟨r, zk1⟩
        rw [hc2] at hkids
        have hr : r = .ok kids := hkids
        subst hr
        have hc : c.ChildrenW zk s0.pool.path = (.ok kids, zk1) := by
          rw [hzk]; exact hc2
        simp only [act, runStep, hc, Option.some.injEq] at hact
        subst hact
        refine ⟨rfl, rfl, m + 1, ?_, ?_, m, rfl, ?_, ?_, hsent⟩
        · simp [zkAfter, hc2]
        · simp [fetchEvs, hc2, htr]
        · simp [pend, hm]
        · simp [hc2]
      | sending kids =>
        simp only at hpc
        obtain ⟨k, h1, h2, h3, h4⟩ := hpc
        cases rr <;> simp [act, runStep] at hact
        subst hact
        refine ⟨rfl, rfl, m, hzk, htr, k, h1, by simpa [pend] using h2, ?_⟩
        subst h1
        simp [fetchEvs, fetched_append, h3, fetched, h4]
      | waiting =>
        simp only at hpc
        obtain ⟨k, h1, h2, h4⟩ := hpc
        cases ev <;> simp [act, runStep] at hact
        subst hact
        refine ⟨rfl, rfl, m, hzk, htr, ?_, h4⟩
        simp [pend] at h2
        simp only [reduceCtorEq, if_false, Nat.add_zero]
        omega

theorem fetchEvs_length {σ : Type} (c : Client σ) (path : Str) (z : σ) (n : Nat) :
    (fetchEvs c path z n).length = n := by
  induction n with
  | zero => rfl
  | succ n ih => simp [fetchEvs, ih]

theorem fetched_fetchEvs_length {σ : Type} (c : Client σ) (path : Str) (z : σ)
    (hok : ∀ j, (c.ChildrenW (zkAfter c path z j) path).1.failed = false) (n : Nat) :
    (fetched (fetchEvs c path z n)).length = n := by
  induction n with
  | zero => rfl
  | succ n ih =>
    obtain ⟨kids, hk⟩ := ok_of_not_failed (hok n)
    simp [fetchEvs, fetched_append, ih, hk, fetched]

/-- One round of the watch loop with a consumer at hand ends in the wait. -/
theorem exec_round {σ : Type} (c : Client σ) (s : Sys σ) (hpc : s.pc = .loopTop)
    (hdone : s.pool.done.closed = false)
    (hok : (c.ChildrenW s.zk s.pool.path).1.failed = false) :
    ∃ s1, exec c s roundSchedule = some s1 ∧ s1.pc = .waiting ∧ s1.evPending = false ∧
      s1.pool = s.pool ∧ s1.zk = (c.ChildrenW s.zk s.pool.path).2 := by
  obtain ⟨pool, pc, zk, rr, ev, tr, sent, sl⟩ := s
  simp only at hpc hdone hok
  subst hpc
  obtain ⟨kids, hkids⟩ := ok_of_not_failed hok
  rcases hc : c.ChildrenW zk pool.path with ⟨r, zk1⟩
  rw [hc] at hkids
  have hr : r = .ok kids := hkids
  subst hr
  simp [roundSchedule, exec, act, runStep, hdone, hc]

/-- A watch event wakes the goroutine from the wait. -/
theorem exec_fire {σ : Type} (c : Client σ) (s : Sys σ) (hpc : s.pc = .waiting)
    (hev : s.evPending = false) :
    ∃ s1, exec c s [.fire, .task .proceed] = some s1 ∧ s1.pc = .loopTop ∧ s1.pool = s.pool ∧
      s1.zk = s.zk := by
  obtain ⟨pool, pc, zk, rr, ev, tr, sent, sl⟩ := s
  simp only at hpc hev
  subst hpc hev
  simp [exec, act, runStep, PC.watching]

theorem watchSchedule_props (N : Nat) :
    (∀ a ∈ watchSchedule N, a ≠ .stop) ∧ (watchSchedule N).count .fire = N := by
  induction N with
  | zero => exact ⟨by decide, by decide⟩
  | succ n ih =>
    constructor
    · intro a ha
      simp only [watchSchedule, List.mem_append] at ha
      rcases ha with ha | ha
      · exact ih.1 a ha
      · revert a; decide
    · simp only [watchSchedule, List.count_append, ih.2]
      have : List.count Action.fire (Action.fire :: Action.task Choice.proceed :: roundSchedule)
          = 1 := by decide
      rw [this]

theorem exec_watchSchedule {σ : Type} (c : Client σ) (s0 : Sys σ) (hpc : s0.pc = .loopTop)
    (hdone : s0.pool.done.closed = false)
    (hok : ∀ j, (c.ChildrenW (zkAfter c s0.pool.path s0.zk j) s0.pool.path).1.failed = false)
    (N : Nat) :
    ∃ s, exec c s0 (watchSchedule N) = some s ∧ s.pc = .waiting ∧ s.evPending = false ∧
      s.pool = s0.pool ∧ s.zk = zkAfter c s0.pool.path s0.zk (N + 1) := by
  induction N with
  | zero =>
    obtain ⟨s, h1, h2, h3, h4, h5⟩ := exec_round c s0 hpc hdone (hok 0)
    exact ⟨s, h1, h2, h3, h4, h5⟩
  | succ n ih =>
    obtain ⟨s, h1, h2, h3, h4, hz⟩ := ih
    obtain ⟨s1, h5, h6, h7, hz1⟩ := exec_fire c s h2 h3
    have hcall : (c.ChildrenW s1.zk s1.pool.path).1.failed = false := by
      rw [hz1, hz, h7, h4]; exact hok (n + 1)
    obtain ⟨s2, h8, h9, h10, h11, hz2⟩ := exec_round c s1 h6 (by rw [h7, h4]; exact hdone) hcall
    refine ⟨s2, ?_, h9, h10, by rw [h11, h7, h4], ?_⟩
    · have hsplit : watchSchedule (n + 1)
          = watchSchedule n ++ ([.fire, .task .proceed] ++ roundSchedule) := rfl
      rw [hsplit, exec_append, h1, Option.some_bind, exec_append, h5, Option.some_bind, h8]
    · rw [hz2, hz1, hz, h7, h4]
      rfl

/-- C3: from the head of the watch loop (registration done), on a backend on
which every `ChildrenW` call of the loop succeeds, without cancellation:
whenever a run without `Stop` in which `N` watch events fired has come to rest
in the wait for the next event (every snapshot received, every event
consumed), the goroutine has made exactly `N + 1` calls `ChildrenW(p.path)`,
one after the other on the backend, and the consumer has received exactly
`N + 1` snapshots: the child lists returned by those calls, in the order of
the calls, each as returned.  Such a run exists for every `N`. -/
theorem C3_watch_cycles {σ : Type} (c : Client σ) (s0 : Sys σ) (N : Nat)
    (hpc : s0.pc = .loopTop) (hdone : s0.pool.done.closed = false)
    (hok : ∀ j, (c.ChildrenW (zkAfter c s0.pool.path s0.zk j) s0.pool.path).1.failed = false) :
    (∀ (as : List Action) (s : Sys σ), (∀ a ∈ as, a ≠ .stop) → as.count .fire = N →
        exec c s0 as = some s → s.pc = .waiting → s.evPending = false →
        s.trace = s0.trace ++ fetchEvs c s0.pool.path s0.zk (N + 1) ∧
        (fetchEvs c s0.pool.path s0.zk (N + 1)).length = N + 1 ∧
        s.sent = s0.sent ++ fetched (fetchEvs c s0.pool.path s0.zk (N + 1)) ∧
        (fetched (fetchEvs c s0.pool.path s0.zk (N + 1))).length = N + 1) ∧
    (∃ s, exec c s0 (watchSchedule N) = some s ∧ (∀ a ∈ watchSchedule N, a ≠ .stop) ∧
        (watchSchedule N).count .fire = N ∧ s.pc = .waiting ∧ s.evPending = false) := by
  constructor
  · intro as s hns hcount hex hw hev
    have h0 : WatchInv c s0 s0 0 := by
      refine ⟨rfl, rfl, 0, rfl, by simp [fetchEvs], ?_⟩
      rw [hpc]
      simp [fetchEvs, fetched]
    have hinv := exec_counting (WatchInv c s0) (WatchInv_step c s0 hdone hok) as s0 s 0 hns h0 hex
    obtain ⟨_, _, m, _, htr, hm⟩ := hinv
    rw [hw] at hm
    obtain ⟨k, h1, h2, h3⟩ := hm
    have hk : m = N + 1 := by
      simp only [pend, hev, Bool.false_eq_true, if_false] at h2
      omega
    subst hk
    exact ⟨htr, fetchEvs_length _ _ _ _, h3, fetched_fetchEvs_length _ _ _ hok _⟩
  · obtain ⟨s, h1, h2, h3, _⟩ := exec_watchSchedule c s0 hpc hdone hok N
    exact ⟨s, h1, (watchSchedule_props N).1, (watchSchedule_props N).2, h2, h3⟩

/-- The hypotheses of C3 hold for the in-memory backend after the registration
of `worker-7`, and the run for one watch event exists. -/
theorem C3_watch_cycles_witness :
    (runInit memClient (NewPool cfg7 [])).pc = .loopTop ∧
    (runInit memClient (NewPool cfg7 [])).pool.done.closed = false ∧
    (∀ j, (memClient.ChildrenW
      (zkAfter memClient (runInit memClient (NewPool cfg7 [])).pool.path
        (runInit memClient (NewPool cfg7 [])).zk j)
      (runInit memClient (NewPool cfg7 [])).pool.path).1.failed = false) ∧
    ∃ s, exec memClient (runInit memClient (NewPool cfg7 [])) (watchSchedule 1) = some s ∧
      (∀ a ∈ watchSchedule 1, a ≠ .stop) ∧ (watchSchedule 1).count .fire = 1 ∧
      s.pc = .waiting ∧ s.evPending = false :=
  ⟨by decide, by decide, fun _ => rfl,
    (C3_watch_cycles memClient (runInit memClient (NewPool cfg7 [])) 1 (by decide) (by decide)
      (fun _ => rfl)).2⟩

theorem act_sent {σ : Type} {c : Client σ} {s s1 : Sys σ} {a : Action}
    (h : act c s a = some s1) : ∃ x, s1.sent = s.sent ++ x := by
  obtain ⟨pool, pc, zk, rr, ev, tr, sent, sl⟩ := s
  cases a with
  | stop => simp only [act, Option.some.injEq] at h; subst h; exact ⟨[], by simp [Stop]⟩
  | recvOn => simp only [act, Option.some.injEq] at h; subst h; exact ⟨[], by simp⟩
  | recvOff => simp only [act, Option.some.injEq] at h; subst h; exact ⟨[], by simp⟩
  | fire => simp only [act] at h; split_ifs at h; cases h; exact ⟨[], by simp⟩
  | wake => simp only [act] at h; split_ifs at h; cases h; exact ⟨[], by simp⟩
  | task ch =>
    cases ch with
    | cancel =>
      simp only [act, runStep] at h
      split at h <;> first | (split_ifs at h; cases h; exact ⟨[], by simp [runReturn]⟩) | cases h
    | proceed =>
      simp only [act, runStep] at h
      split at h
      · cases h
        refine ⟨[], ?_⟩
        unfold runInit
        simp only
        split_ifs
        · simp
        · split <;> simp [runReturn]
      · split_ifs at h; cases h; exact ⟨[], by simp⟩
      · split at h <;> (cases h; exact ⟨[], by simp⟩)
      · split_ifs at h; cases h; exact ⟨_, rfl⟩
      · split_ifs at h; cases h; exact ⟨[], by simp⟩
      · cases h

/-- The invariant of the retrying watch loop is kept by every action but `Stop`. -/
theorem RetryInv_step {σ : Type} (c : Client σ) (s0 : Sys σ) (K : Nat) (kids : List Str)
    (hdone : s0.pool.done.closed = false)
    (hfail : ∀ j, j < K →
      (c.ChildrenW (zkAfter c s0.pool.path s0.zk j) s0.pool.path).1.failed = true)
    (hsucc : (c.ChildrenW (zkAfter c s0.pool.path s0.zk K) s0.pool.path).1 = .ok kids)
    (s : Sys σ) (a : Action) (s1 : Sys σ) (ha : a ≠ .stop)
    (hinv : RetryInv c s0 s K kids) (hact : act c s a = some s1) :
    RetryInv c s0 s1 K kids := by
  rcases hinv with ⟨more, hmore⟩ | ⟨hpool, hsent, m, hzk, htr, hsl, hpc⟩
  · obtain ⟨x, hx⟩ := act_sent hact
    exact Or.inl ⟨more ++ x, by rw [hx, hmore]; simp⟩
  · obtain ⟨pool, pc, zk, rr, ev, tr, sent, sl⟩ := s
    simp only at hpool hsent hzk htr hsl hpc
    subst hpool hsent
    cases a with
    | stop => exact absurd rfl ha
    | recvOn =>
      simp only [act, Option.some.injEq] at hact
      subst hact
      exact Or.inr ⟨rfl, rfl, m, hzk, htr, hsl, hpc⟩
    | recvOff =>
      simp only [act, Option.some.injEq] at hact
      subst hact
      exact Or.inr ⟨rfl, rfl, m, hzk, htr, hsl, hpc⟩
    | fire =>
      simp only [act] at hact
      split_ifs at hact
      cases hact
      exact Or.inr ⟨rfl, rfl, m, hzk, htr, hsl, hpc⟩
    | wake =>
      cases pc <;> simp [act] at hact
      subst hact
      exact Or.inr ⟨rfl, rfl, m, hzk, htr, hsl, hpc.2⟩
    | task ch =>
      cases ch with
      | cancel =>
        cases pc <;> simp [act, runStep, hdone] at hact
      | proceed =>
        cases pc with
        | start => exact False.elim hpc
        | exited => exact False.elim hpc
        | fatal => exact False.elim hpc
        | waiting => exact False.elim hpc
        | sleeping => simp [act, runStep] at hact
        | loopTop =>
          simp only [act, runStep, hdone, Bool.false_eq_true, if_false,
            Option.some.injEq] at hact
          subst hact
          exact Or.inr ⟨rfl, rfl, m, hzk, htr, hsl, hpc⟩
        | fetch =>
          simp only at hpc
          rcases hc : c.ChildrenW zk s0.pool.path with ⟨r, zk1⟩
          have hc2 : c.ChildrenW (zkAfter c s0.pool.path s0.zk m) s0.pool.path = (r, zk1) := by
            rw [← hzk]; exact hc
          rcases Nat.lt_or_ge m K with hlt | hge
          · have hf := hfail m hlt
            rw [hc2] at hf
            cases r with
            | ok v => simp [Res.failed] at hf
            | error e =>
              simp only [act, runStep, hc, Option.some.injEq] at hact
              subst hact
              refine Or.inr ⟨rfl, rfl, m + 1, ?_, ?_, ?_, ?_⟩
              · simp [zkAfter, hc2]
              · simp [fetchEvs, hc2, htr]
              · simp only [hsl]
                rw [Nat.min_eq_left (Nat.le_of_lt hlt), Nat.min_eq_left hlt,
                  List.replicate_succ']
                simp
              · exact ⟨Nat.succ_le_succ (Nat.zero_le m), hlt⟩
          · have hm : m = K := Nat.le_antisymm hpc hge
            subst hm
            rw [hc2] at hsucc
            have hr : r = .ok kids := hsucc
            subst hr
            simp only [act, runStep, hc, Option.some.injEq] at hact
            subst hact
            refine Or.inr ⟨rfl, rfl, m + 1, ?_, ?_, ?_, ?_⟩
            · simp [zkAfter, hc2]
            · simp [fetchEvs, hc2, htr]
            · simp only [hsl]
              simp
            · exact ⟨rfl, rfl⟩
        | sending ch =>
          simp only at hpc
          obtain ⟨_, hch⟩ := hpc
          subst hch
          cases rr <;> simp [act, runStep] at hact
          subst hact
          exact Or.inl ⟨[], rfl⟩

theorem exec_failRounds {σ : Type} (c : Client σ) (s0 : Sys σ) (K : Nat)
    (hpc : s0.pc = .loopTop) (hdone : s0.pool.done.closed = false)
    (hfail : ∀ j, j < K →
      (c.ChildrenW (zkAfter c s0.pool.path s0.zk j) s0.pool.path).1.failed = true) :
    ∀ j, j ≤ K → ∃ s, exec c s0 (failRounds j) = some s ∧ s.pc = .loopTop ∧
      s.pool = s0.pool ∧ s.sent = s0.sent ∧ s.zk = zkAfter c s0.pool.path s0.zk j ∧
      s.trace = s0.trace ++ fetchEvs c s0.pool.path s0.zk j ∧
      s.sleeps = s0.sleeps ++ List.replicate j (Second * 2) := by
  intro j
  induction j with
  | zero =>
    intro _
    exact ⟨s0, rfl, hpc, rfl, rfl, rfl, by simp [fetchEvs], by simp⟩
  | succ j ih =>
    intro hj
    obtain ⟨s, h1, h2, h3, h4, h5, h6, h7⟩ := ih (Nat.le_of_succ_le hj)
    obtain ⟨pool, pc, zk, rr, ev, tr, sent, sl⟩ := s
    simp only at h2 h3 h4 h5 h6 h7
    subst h2 h3 h4
    rcases hc : c.ChildrenW zk s0.pool.path with ⟨r, zk1⟩
    have hc2 : c.ChildrenW (zkAfter c s0.pool.path s0.zk j) s0.pool.path = (r, zk1) := by
      rw [← h5]; exact hc
    have hf := hfail j hj
    rw [hc2] at hf
    cases r with
    | ok v => simp [Res.failed] at hf
    | error e =>
      refine ⟨{ pool := s0.pool, pc := .loopTop, zk := zk1, recvReady := rr, evPending := ev,
                trace := tr ++ [Ev.ChildrenW s0.pool.path (.error e)], sent := s0.sent,
                sleeps := sl ++ [Second * 2] }, ?_, rfl, rfl, rfl, ?_, ?_, ?_⟩
      · simp only [failRounds]
        rw [exec_append, h1, Option.some_bind]
        simp [exec, act, runStep, hdone, hc]
      · simp [zkAfter, hc2]
      · simp [fetchEvs, hc2, h6]
      · simp only [h7]
        rw [List.replicate_succ']
        simp

theorem failRounds_noStop (n : Nat) : ∀ a ∈ failRounds n, a ≠ .stop := by
  induction n with
  | zero => simp [failRounds]
  | succ n ih =>
    intro a ha
    simp only [failRounds, List.mem_append] at ha
    rcases ha with ha | ha
    · exact ih a ha
    · revert a; decide

theorem retrySchedule_noStop (n : Nat) : ∀ a ∈ retrySchedule n, a ≠ .stop := by
  intro a ha
  simp only [retrySchedule, List.mem_append] at ha
  rcases ha with ha | ha
  · exact failRounds_noStop n a ha
  · revert a; decide

/-- C4: from the head of the watch loop (registration done) with cancellation
not requested, on a backend whose first `K` calls of `ChildrenW` fail and whose
call `K + 1` returns `kids`: the run of `K` failed rounds and one more fetch
exists and ends in the send of `kids` after exactly `K` sleeps of
`time.Second * 2`, `K + 1` calls and nothing delivered; and in every run
without `Stop`, as long as nothing was delivered, at most `K` sleeps, each of
`time.Second * 2`, were started, a snapshot being offered is `kids`, offered
after exactly `K` sleeps and `K + 1` calls, and once something was delivered
the first snapshot delivered is `kids`. -/
theorem C4_retry_then_first_snapshot {σ : Type} (c : Client σ) (s0 : Sys σ) (K : Nat)
    (kids : List Str)
    (hpc : s0.pc = .loopTop) (hdone : s0.pool.done.closed = false)
    (hfail : ∀ j, j < K →
      (c.ChildrenW (zkAfter c s0.pool.path s0.zk j) s0.pool.path).1.failed = true)
    (hsucc : (c.ChildrenW (zkAfter c s0.pool.path s0.zk K) s0.pool.path).1 = .ok kids) :
    (∃ s, exec c s0 (retrySchedule K) = some s ∧ (∀ a ∈ retrySchedule K, a ≠ .stop) ∧
        s.pc = .sending kids ∧ s.sent = s0.sent ∧
        s.sleeps = s0.sleeps ++ List.replicate K (Second * 2) ∧
        s.trace = s0.trace ++ fetchEvs c s0.pool.path s0.zk (K + 1)) ∧
    (∀ (as : List Action) (s : Sys σ), (∀ a ∈ as, a ≠ .stop) → exec c s0 as = some s →
        (s.sent = s0.sent ∧
          (∃ j, j ≤ K ∧ s.sleeps = s0.sleeps ++ List.replicate j (Second * 2)) ∧
          (∀ ch, s.pc = .sending ch →
            ch = kids ∧ s.sleeps = s0.sleeps ++ List.replicate K (Second * 2) ∧
            s.trace = s0.trace ++ fetchEvs c s0.pool.path s0.zk (K + 1))) ∨
        (∃ more, s.sent = s0.sent ++ kids :: more)) := by
  constructor
  · obtain ⟨s, h1, h2, h3, h4, h5, h6, h7⟩ :=
      exec_failRounds c s0 K hpc hdone hfail K (Nat.le_refl K)
    obtain ⟨pool, pc, zk, rr, ev, tr, sent, sl⟩ := s
    simp only at h2 h3 h4 h5 h6 h7
    subst h2 h3 h4
    rcases hc : c.ChildrenW zk s0.pool.path with ⟨r, zk1⟩
    have hc2 : c.ChildrenW (zkAfter c s0.pool.path s0.zk K) s0.pool.path = (r, zk1) := by
      rw [← h5]; exact hc
    rw [hc2] at hsucc
    have hr : r = .ok kids := hsucc
    subst hr
    refine ⟨{ pool := s0.pool, pc := .sending kids, zk := zk1, recvReady := rr,
              evPending := false, trace := tr ++ [Ev.ChildrenW s0.pool.path (.ok kids)],
              sent := s0.sent, sleeps := sl }, ?_, retrySchedule_noStop K, rfl, rfl, h7, ?_⟩
    · simp only [retrySchedule]
      rw [exec_append, h1, Option.some_bind]
      simp [exec, act, runStep, hdone, hc]
    · simp [fetchEvs, hc2, h6]
  · intro as s hns hex
    have h0 : RetryInv c s0 s0 K kids := by
      refine Or.inr ⟨rfl, rfl, 0, rfl, by simp [fetchEvs], by simp, ?_⟩
      rw [hpc]
      exact Nat.zero_le K
    have hinv : RetryInv c s0 s K kids := by
      have key := exec_counting (c := c) (fun x _ => RetryInv c s0 x K kids)
        (fun x a x1 _ ha hx hact => RetryInv_step c s0 K kids hdone hfail hsucc x a x1 ha hx hact)
        as s0 s 0 hns h0 hex
      exact key
    rcases hinv with hmore | ⟨_, hsent, m, _, htr, hsl, hm⟩
    · exact Or.inr hmore
    · refine Or.inl ⟨hsent, ⟨min m K, Nat.min_le_right m K, hsl⟩, ?_⟩
      intro ch hch
      rw [hch] at hm
      obtain ⟨h1, h2⟩ := hm
      subst h1
      refine ⟨h2, ?_, htr⟩
      rw [hsl]
      simp

/-- The hypotheses of C4 hold after registration on a backend whose first two
`ChildrenW` calls fail, and the run ends in the send after two sleeps. -/
theorem C4_retry_then_first_snapshot_witness :
    (runInit (flakyClient 2 ["worker-7".toList]) (NewPool cfg7 0)).pc = .loopTop ∧
    (runInit (flakyClient 2 ["worker-7".toList]) (NewPool cfg7 0)).pool.done.closed = false ∧
    ∃ s, exec (flakyClient 2 ["worker-7".toList])
        (runInit (flakyClient 2 ["worker-7".toList]) (NewPool cfg7 0)) (retrySchedule 2) = some s ∧
      (∀ a ∈ retrySchedule 2, a ≠ .stop) ∧
      s.pc = .sending ["worker-7".toList] ∧
      s.sent = (runInit (flakyClient 2 ["worker-7".toList]) (NewPool cfg7 0)).sent ∧
      s.sleeps = (runInit (flakyClient 2 ["worker-7".toList]) (NewPool cfg7 0)).sleeps ++
        List.replicate 2 (Second * 2) ∧
      s.trace = (runInit (flakyClient 2 ["worker-7".toList]) (NewPool cfg7 0)).trace ++
        fetchEvs (flakyClient 2 ["worker-7".toList])
          (runInit (flakyClient 2 ["worker-7".toList]) (NewPool cfg7 0)).pool.path
          (runInit (flakyClient 2 ["worker-7".toList]) (NewPool cfg7 0)).zk (2 + 1) :=
  ⟨by decide, by decide,
    (C4_retry_then_first_snapshot (flakyClient 2 ["worker-7".toList])
      (runInit (flakyClient 2 ["worker-7".toList]) (NewPool cfg7 0)) 2 ["worker-7".toList]
      (by decide) (by decide)
      (by intro j hj; interval_cases j <;> rfl)
      (by rfl)).1⟩

/-! ## Cancellation (C5, C6, C7) -/

theorem Stop_idem {σ : Type} (s : Sys σ) : Stop (Stop s) = Stop s := by
  simp only [Stop, Pool.Stop]
  split_ifs <;> simp_all

theorem stopTimes_succ {σ : Type} (n : Nat) (s : Sys σ) : stopTimes (n + 1) s = Stop s := by
  induction n generalizing s with
  | zero => rfl
  | succ n ih =>
    show stopTimes (n + 1) (Stop s) = Stop s
    rw [ih, Stop_idem]

theorem runInit_pool {σ : Type} (c : Client σ) (s : Sys σ) :
    ((runInit c s).pc = .exited ∧ (runInit c s).pool = { s.pool with out := s.pool.out.close }) ∨
    ((runInit c s).pc ≠ .exited ∧ (runInit c s).pool = s.pool) := by
  unfold runInit
  simp only
  split_ifs
  · exact Or.inr ⟨by simp, rfl⟩
  · split
    · exact Or.inl ⟨rfl, rfl⟩
    · exact Or.inr ⟨by simp, rfl⟩

theorem PoolInv_step {σ : Type} (c : Client σ) (s : Sys σ) (a : Action) (s1 : Sys σ)
    (hinv : PoolInv s) (hact : act c s a = some s1) : PoolInv s1 := by
  obtain ⟨h1, h2, h3, h4⟩ := hinv
  cases a with
  | recvOn => simp only [act, Option.some.injEq] at hact; subst hact; exact ⟨h1, h2, h3, h4⟩
  | recvOff => simp only [act, Option.some.injEq] at hact; subst hact; exact ⟨h1, h2, h3, h4⟩
  | fire =>
    simp only [act] at hact
    split_ifs at hact
    cases hact
    exact ⟨h1, h2, h3, h4⟩
  | wake =>
    simp only [act] at hact
    split_ifs at hact with hp
    cases hact
    refine ⟨h1, h2, ?_, ?_⟩
    · simpa [hp] using h3
    · simpa [hp] using h4
  | stop =>
    simp only [act, Option.some.injEq] at hact
    subst hact
    simp only [Stop, Pool.Stop]
    split_ifs with ho
    · exact ⟨h1, h2, h3, h4⟩
    · refine ⟨rfl, ?_, h3, h4⟩
      simp only [Chan.close, if_true]
      rw [h2]
      simp [ho]
  | task ch =>
    obtain ⟨pool, pc, zk, rr, ev, tr, sent, sl⟩ := s
    simp only at h1 h2 h3 h4
    cases ch with
    | cancel =>
      cases pc <;> simp only [act, runStep] at hact <;> try cases hact
      all_goals
        split_ifs at hact
        cases hact
        refine ⟨h1, h2, ?_, ?_⟩
        · simp [runReturn, Chan.close]
        · simp only [runReturn, Chan.close, if_true]
          rw [h4]
          simp
    | proceed =>
      cases pc with
      | exited => simp [act, runStep] at hact
      | fatal => simp [act, runStep] at hact
      | sleeping => simp [act, runStep] at hact
      | start =>
        simp only [act, runStep, Option.some.injEq] at hact
        subst hact
        rcases runInit_pool c
          { pool := pool, pc := .start, zk := zk, recvReady := rr, evPending := ev, trace := tr,
            sent := sent, sleeps := sl } with ⟨hp, hq⟩ | ⟨hp, hq⟩
        · unfold PoolInv
          rw [hp, hq]
          refine ⟨h1, h2, by simp [Chan.close], ?_⟩
          simp only [Chan.close, if_true]
          rw [h4]
          simp
        · unfold PoolInv
          rw [hq]
          refine ⟨h1, h2, ?_, ?_⟩
          · simpa [hp] using h3
          · simpa [hp] using h4
      | loopTop =>
        simp only [act, runStep] at hact
        split_ifs at hact
        cases hact
        refine ⟨h1, h2, ?_, ?_⟩
        · simpa using h3
        · simpa using h4
      | fetch =>
        simp only [act, runStep] at hact
        split at hact <;>
          (cases hact
           refine ⟨h1, h2, ?_, ?_⟩
           · simpa using h3
           · simpa using h4)
      | sending kids =>
        simp only [act, runStep] at hact
        split_ifs at hact
        cases hact
        refine ⟨h1, h2, ?_, ?_⟩
        · simpa using h3
        · simpa using h4
      | waiting =>
        simp only [act, runStep] at hact
        split_ifs at hact
        cases hact
        refine ⟨h1, h2, ?_, ?_⟩
        · simpa using h3
        · simpa using h4

theorem PoolInv_NewPool {σ : Type} (cfg : PoolConfig) (zk : σ) : PoolInv (NewPool cfg zk) := by
  simp [PoolInv, NewPool, newPool, Chan.make]

/-- Only `Stop` fires the `sync.Once`. -/
theorem act_once {σ : Type} {c : Client σ} {s s1 : Sys σ} {a : Action}
    (h : act c s a = some s1) : s1.pool.once = (s.pool.once || decide (a = .stop)) := by
  cases a with
  | stop =>
    simp only [act, Option.some.injEq] at h
    subst h
    simp only [Stop, Pool.Stop]
    split_ifs with ho <;> simp [ho]
  | recvOn => simp only [act, Option.some.injEq] at h; subst h; simp
  | recvOff => simp only [act, Option.some.injEq] at h; subst h; simp
  | fire => simp only [act] at h; split_ifs at h; cases h; simp
  | wake => simp only [act] at h; split_ifs at h; cases h; simp
  | task ch =>
    cases ch with
    | cancel =>
      simp only [act, runStep] at h
      split at h <;> first | (split_ifs at h; cases h; simp [runReturn]) | cases h
    | proceed =>
      simp only [act, runStep] at h
      split at h
      · cases h
        rcases runInit_pool c s with ⟨_, hq⟩ | ⟨_, hq⟩ <;> rw [hq] <;> simp
      · split_ifs at h; cases h; simp
      · split at h <;> (cases h; simp)
      · split_ifs at h; cases h; simp
      · split_ifs at h; cases h; simp
      · cases h

theorem exec_once {σ : Type} {c : Client σ} (as : List Action) :
    ∀ (s s1 : Sys σ), exec c s as = some s1 →
      s1.pool.once = (s.pool.once || decide (Action.stop ∈ as)) := by
  induction as with
  | nil =>
    intro s s1 h
    simp only [exec, Option.some.injEq] at h
    subst h
    simp
  | cons a t ih =>
    intro s s1 h
    simp only [exec] at h
    split at h
    · cases h
    · rename_i s2 heq
      rw [ih s2 s1 h, act_once heq]
      by_cases ha : a = .stop
      · subst ha; simp
      · have : ¬ Action.stop = a := fun e => ha e.symm
        simp [ha, this]

/-- Once `p.done` is closed, no action opens it again. -/
theorem act_done_latched {σ : Type} {c : Client σ} {s s1 : Sys σ} {a : Action}
    (hd : s.pool.done.closed = true) (h : act c s a = some s1) :
    s1.pool.done.closed = true := by
  cases a with
  | stop =>
    simp only [act, Option.some.injEq] at h
    subst h
    simp only [Stop, Pool.Stop]
    split_ifs
    · exact hd
    · rfl
  | recvOn => simp only [act, Option.some.injEq] at h; subst h; exact hd
  | recvOff => simp only [act, Option.some.injEq] at h; subst h; exact hd
  | fire => simp only [act] at h; split_ifs at h; cases h; exact hd
  | wake => simp only [act] at h; split_ifs at h; cases h; exact hd
  | task ch =>
    cases ch with
    | cancel =>
      simp only [act, runStep] at h
      split at h <;> first | (split_ifs at h; cases h; exact hd) | cases h
    | proceed =>
      simp only [act, runStep] at h
      split at h
      · cases h
        rcases runInit_pool c s with ⟨_, hq⟩ | ⟨_, hq⟩ <;> rw [hq] <;> exact hd
      · simp [hd] at h
      · split at h <;> (cases h; exact hd)
      · split_ifs at h; cases h; exact hd
      · split_ifs at h; cases h; exact hd
      · cases h

/-- C5: `Stop` applied `n ≥ 1` times gives the same state as `Stop` applied
once, for every state; `Stop` leaves the output channel, the program point and
the history alone; no action re-opens a closed `p.done`; and in every state
reached from `NewPool` by any schedule, `p.done` is closed exactly when the
schedule contains a `Stop`, by exactly one `close` however many `Stop`s there
are (so never the panic of a second `close`), and `p.out` is closed exactly when
`run` has returned, by exactly one `close`. -/
theorem C5_stop_idempotent {σ : Type} (c : Client σ) (cfg : PoolConfig) (zk : σ) (n : Nat)
    (hn : 1 ≤ n) :
    (∀ s : Sys σ, stopTimes n s = Stop s) ∧
    (∀ s : Sys σ, (Stop s).pool.out = s.pool.out ∧ (Stop s).core = s.core) ∧
    (∀ (s s1 : Sys σ) (a : Action), s.pool.done.closed = true → act c s a = some s1 →
      s1.pool.done.closed = true) ∧
    (∀ (as : List Action) (s : Sys σ), exec c (NewPool cfg zk) as = some s →
      s.pool.done.closed = decide (Action.stop ∈ as) ∧
      s.pool.done.closes = (if Action.stop ∈ as then 1 else 0) ∧
      s.pool.out.closed = decide (s.pc = .exited) ∧
      s.pool.out.closes = (if s.pc = .exited then 1 else 0)) := by
  refine ⟨?_, ?_, ?_, ?_⟩
  · intro s
    obtain ⟨k, rfl⟩ : ∃ k, n = k + 1 := ⟨n - 1, by omega⟩
    exact stopTimes_succ k s
  · intro s
    refine ⟨?_, Stop_core s⟩
    simp only [Stop, Pool.Stop]
    split_ifs <;> rfl
  · intro s s1 a hd h
    exact act_done_latched hd h
  · intro as s hex
    have hinv := exec_invariant (c := c) PoolInv (PoolInv_step c) as _ s (PoolInv_NewPool cfg zk) hex
    have honce := exec_once as _ s hex
    have h0 : (NewPool cfg zk : Sys σ).pool.once = false := rfl
    rw [h0, Bool.false_or] at honce
    obtain ⟨h1, h2, h3, h4⟩ := hinv
    refine ⟨h1.trans honce, ?_, h3, h4⟩
    rw [h2, honce]
    simp

/-- The hypothesis of C5 holds for three calls of `Stop`. -/
theorem C5_stop_idempotent_witness :
    1 ≤ 3 ∧ stopTimes 3 (NewPool cfg7 ([] : List Str)) = Stop (NewPool cfg7 ([] : List Str)) :=
  ⟨by decide, (C5_stop_idempotent memClient cfg7 [] 3 (by decide)).1 _⟩

/-- C6: with `p.done` closed and the goroutine blocked either in the send of a
snapshot with no consumer receiving or in the wait with no watch event
pending, the one step the goroutine can take is the `case <-p.done`: `run`
returns, `p.out` is closed, the snapshot is not delivered and no call is
added to the trace; any other action enabled in that state is a move of the
environment that leaves the goroutine where it is; and after the return no
schedule adds a backend call or a delivery. -/
theorem C6_cancel_while_blocked {σ : Type} (c : Client σ) (s : Sys σ)
    (hdone : s.pool.done.closed = true)
    (hblocked : (∃ ch, s.pc = .sending ch ∧ s.recvReady = false) ∨
      (s.pc = .waiting ∧ s.evPending = false)) :
    runStep c s .cancel = some (runReturn s) ∧
    (∀ ch s1, runStep c s ch = some s1 → ch = .cancel ∧ s1 = runReturn s) ∧
    (∀ a s1, act c s a = some s1 → a ≠ .task .cancel → s1.core = s.core) ∧
    (runReturn s).pc = .exited ∧ (runReturn s).pool.out.closed = true ∧
    (runReturn s).sent = s.sent ∧ (runReturn s).trace = s.trace ∧
    (∀ (as : List Action) (s2 : Sys σ), exec c (runReturn s) as = some s2 →
      s2.pc = .exited ∧ s2.pool.out.closed = true ∧ s2.sent = s.sent ∧ s2.trace = s.trace) := by
  have hstep : runStep c s .cancel = some (runReturn s) := by
    rcases hblocked with ⟨ch, h1, _⟩ | ⟨h1, _⟩ <;> simp [runStep, h1, hdone]
  have hno : runStep c s .proceed = none := by
    rcases hblocked with ⟨ch, h1, h2⟩ | ⟨h1, h2⟩ <;> simp [runStep, h1, h2]
  refine ⟨hstep, ?_, ?_, rfl, rfl, rfl, rfl, ?_⟩
  · intro ch s1 h
    cases ch with
    | cancel =>
      rw [hstep] at h
      exact ⟨rfl, (Option.some.inj h).symm⟩
    | proceed => rw [hno] at h; cases h
  · intro a s1 h ha
    by_cases hw : a = .wake
    · subst hw
      rcases hblocked with ⟨ch, h1, _⟩ | ⟨h1, _⟩ <;> simp [act, h1] at h
    · refine act_env_core h ?_ hw
      intro ch e
      subst e
      cases ch with
      | cancel => exact ha rfl
      | proceed =>
        simp only [act] at h
        rw [hno] at h
        cases h
  · intro as s2 hex
    have h := exec_terminal as (Or.inl rfl) hex
    simp only [Sys.core, Prod.mk.injEq] at h
    obtain ⟨h1, _, h3, h4, h5, _⟩ := h
    exact ⟨h1, by rw [h3]; rfl, h5, h4⟩

/-- The hypotheses of C6 hold for the example pool blocked in the send after
`Stop`; its step is the return. -/
theorem C6_cancel_while_blocked_witness :
    sendingStopped.pool.done.closed = true ∧
    ((∃ ch, sendingStopped.pc = .sending ch ∧ sendingStopped.recvReady = false) ∨
      (sendingStopped.pc = .waiting ∧ sendingStopped.evPending = false)) ∧
    runStep memClient sendingStopped .cancel = some (runReturn sendingStopped) :=
  ⟨by decide, Or.inl ⟨_, rfl, rfl⟩,
    (C6_cancel_while_blocked memClient sendingStopped (by decide) (Or.inl ⟨_, rfl, rfl⟩)).1⟩

/-- C7, refuted: a state reached from `NewPool` (bootstrap, registration, loop
head, a failed `ChildrenW`, then `Stop` during the sleep) in which `p.done` is
closed and the goroutine is inside `time.Sleep`, and from which no action at
all leads to the return of `run`: the goroutine has no step, and the only move
of the timer leads to the loop head. -/
theorem C7_counterexample :
    exec (flakyClient 1 []) (NewPool cfg7 0)
      [.task .proceed, .task .proceed, .task .proceed, .stop] = some sleepingStopped ∧
    sleepingStopped.pc = .sleeping ∧ sleepingStopped.pool.done.closed = true ∧
    (∀ ch, runStep (flakyClient 1 []) sleepingStopped ch = none) ∧
    (∀ a s1, act (flakyClient 1 []) sleepingStopped a = some s1 → s1.pc ≠ .exited) := by
  refine ⟨rfl, rfl, rfl, ?_, ?_⟩
  · intro ch
    cases ch <;> rfl
  · intro a s1 h
    cases a with
    | task ch => cases ch <;> cases h
    | stop => cases h; simp [Stop, sleepingStopped]
    | recvOn => cases h; simp [sleepingStopped]
    | recvOff => cases h; simp [sleepingStopped]
    | fire => cases h
    | wake => cases h; simp

/-- C7, amended: with `p.done` closed, the send of a snapshot and the wait for
the watch event can take the `case <-p.done` at once, whether or not a consumer
or an event is there; the sleep of `time.Second * 2` after a failed `ChildrenW`
does not look at `p.done`: while it lasts the goroutine has no step and no
action leads to the return, the timer alone ends it, and then the `select` at
the head of the loop has the return of `run` as its only step, with no
further backend call. -/
theorem C7_cancel_points {σ : Type} (c : Client σ) (s : Sys σ)
    (hdone : s.pool.done.closed = true) :
    ((∃ ch, s.pc = .sending ch) ∨ s.pc = .waiting → runStep c s .cancel = some (runReturn s)) ∧
    (s.pc = .sleeping →
      (∀ ch, runStep c s ch = none) ∧
      (∀ a s1, act c s a = some s1 → s1.pc ≠ .exited) ∧
      act c s .wake = some { s with pc := .loopTop } ∧
      runStep c { s with pc := .loopTop } .cancel = some (runReturn { s with pc := .loopTop }) ∧
      (∀ ch s1, runStep c { s with pc := .loopTop } ch = some s1 →
        ch = .cancel ∧ s1.pc = .exited ∧ s1.trace = s.trace ∧ s1.sent = s.sent)) := by
  constructor
  · rintro (⟨ch, h1⟩ | h1) <;> simp [runStep, h1, hdone]
  · intro hp
    refine ⟨?_, ?_, by simp [act, hp], by simp [runStep, hdone], ?_⟩
    · intro ch
      cases ch <;> simp [runStep, hp]
    · intro a s1 h
      cases a with
      | task ch => cases ch <;> simp [act, runStep, hp] at h
      | stop =>
        simp only [act, Option.some.injEq] at h
        subst h
        simp [Stop, hp]
      | recvOn => simp only [act, Option.some.injEq] at h; subst h; simp [hp]
      | recvOff => simp only [act, Option.some.injEq] at h; subst h; simp [hp]
      | fire => simp [act, hp, PC.watching] at h
      | wake =>
        simp only [act, hp, if_true, Option.some.injEq] at h
        subst h
        simp
    · intro ch s1 h
      cases ch with
      | cancel =>
        simp only [runStep, hdone, if_true, Option.some.injEq] at h
        subst h
        exact ⟨rfl, rfl, rfl, rfl⟩
      | proceed => simp [runStep, hdone] at h

/-- The hypothesis of the amended C7 holds in the state of the refutation:
the goroutine sleeps through the cancellation. -/
theorem C7_cancel_points_witness :
    sleepingStopped.pool.done.closed = true ∧ sleepingStopped.pc = .sleeping ∧
    (∀ ch, runStep (flakyClient 1 []) sleepingStopped ch = none) :=
  ⟨rfl, rfl, ((C7_cancel_points (flakyClient 1 []) sleepingStopped rfl).2 rfl).1⟩

end zookeeper
